import Mathlib

set_option maxHeartbeats 1000000
set_option linter.unusedVariables false
set_option linter.unreachableTactic false
set_option linter.unusedTactic false
set_option linter.unnecessarySeqFocus false

namespace Da4py

/-- Boolean formula nodes of src/src/main/formulas.py: an operator (AND or OR)
holding a list of positive literal magnitudes, a list of negative literal
magnitudes, and a list of child formula nodes. -/
inductive Formula where
  | And : List Int → List Int → List Formula → Formula
  | Or : List Int → List Int → List Formula → Formula

instance : Inhabited Formula := ⟨Formula.And [] [] []⟩

mutual
/-- Structural size of a formula (node count), used only as a termination measure. -/
def fsize : Formula → Nat
  | .And _ _ cs => 1 + lsize cs
  | .Or _ _ cs => 1 + lsize cs
/-- Structural size of a list of formulas. -/
def lsize : List Formula → Nat
  | [] => 0
  | c :: cs => 1 + fsize c + lsize cs
end

mutual
/-- All literal magnitudes mentioned in the positive / negative lists of a
formula and of its descendants, in order. -/
def litsOf : Formula → List Int
  | .And p n cs => p ++ n ++ litsOfList cs
  | .Or p n cs => p ++ n ++ litsOfList cs
/-- All literal magnitudes of a list of formulas. -/
def litsOfList : List Formula → List Int
  | [] => []
  | c :: cs => litsOf c ++ litsOfList cs
end

mutual
/-- Truth value of a formula under an assignment of magnitudes to booleans:
an AND node is true iff every positive literal is true, every negative literal
is false and every child is true; an OR node is true iff some positive literal
is true, some negative literal is false or some child is true. -/
def evalF (A : Int → Bool) : Formula → Bool
  | .And p n cs => p.all (fun v => A v) && n.all (fun v => !(A v)) && evalConj A cs
  | .Or p n cs => p.any (fun v => A v) || n.any (fun v => !(A v)) || evalDisj A cs
/-- Conjunction of the truth values of a list of formulas. -/
def evalConj (A : Int → Bool) : List Formula → Bool
  | [] => true
  | c :: cs => evalF A c && evalConj A cs
/-- Disjunction of the truth values of a list of formulas. -/
def evalDisj (A : Int → Bool) : List Formula → Bool
  | [] => false
  | c :: cs => evalF A c || evalDisj A cs
end

/-- Variable a signed clause literal speaks about: l itself when l is positive,
otherwise -l. -/
def litVar (l : Int) : Int := if 0 < l then l else -l

/-- Truth of a signed clause literal under an assignment: a positive literal
asserts its variable, a non-positive one denies it. -/
def litSat (A : Int → Bool) (l : Int) : Bool := if 0 < l then A l else !(A (-l))

/-- Truth of a clause (a disjunction of signed literals). -/
def clauseSat (A : Int → Bool) (cl : List Int) : Bool := cl.any (litSat A)

/-- Truth of a CNF clause list (a conjunction of clauses). -/
def cnfSat (A : Int → Bool) (cls : List (List Int)) : Bool := cls.all (clauseSat A)

/-- Translated from formulas.py, And.distributeImplication and the in-place
rewriting inside Or.aux_operatorToCnf (lines 200-215): push the obligation
"if variable var is true then this child holds" into the child.  An OR child
only appends var to its negative literals; an AND child is replaced by an AND
of small ORs, one per positive literal, one per negative literal and one
wrapping each grandchild. -/
def distributeImplication (f : Formula) (var : Int) : Formula :=
  match f with
  | .Or p n cs => .Or p (n ++ [var]) cs
  | .And p n cs => .And [] []
      (p.map (fun positiveVariable => Formula.Or [positiveVariable] [var] []) ++
       n.map (fun negativeVariable => Formula.Or [] [negativeVariable, var] []) ++
       cs.map (fun formula => Formula.Or [] [var] [formula]))

/-- Guard of the special case of Or.aux_operatorToCnf (lines 190-193): the
child list consists of exactly one OR node carrying no literals; in that case
the inner children are returned. -/
def unwrapTarget : List Formula → Option (List Formula)
  | [Formula.Or [] [] gs] => some gs
  | _ => none

/-- Child i is rewritten with auxiliary variable nb + i, matching the loop of
Or.aux_operatorToCnf in which child i receives NB_VARS + i. -/
def rewriteChildren : List Formula → Nat → List Formula
  | [], _ => []
  | c :: cs, nb => distributeImplication c (nb : Int) :: rewriteChildren cs (nb + 1)

mutual
/-- Termination measure for the CNF compiler: AND children and literals are
weighted heavily enough that the distributeImplication rewriting strictly
shrinks the measure. -/
def mu : Formula → Nat
  | .And p n cs => 2 + 6 * (p.length + n.length) + muLA cs
  | .Or _ _ cs => 1 + muLO cs
/-- Measure contribution of an AND node's children. -/
def muLA : List Formula → Nat
  | [] => 0
  | c :: cs => (2 * mu c + 8) + muLA cs
/-- Measure contribution of an OR node's children. -/
def muLO : List Formula → Nat
  | [] => 0
  | c :: cs => (2 * mu c + 2) + muLO cs
end

/-- Termination measure for compiling a list of formulas. -/
def muB : List Formula → Nat
  | [] => 0
  | c :: cs => 1 + mu c + muB cs

theorem mu_pos (f : Formula) : 1 ≤ mu f := by
  cases f <;> (simp only [mu]; omega)

theorem muB_le_muLA (cs : List Formula) : muB cs ≤ muLA cs := by
  induction cs with
  | nil => simp [muB, muLA]
  | cons c cs ih => simp [muB, muLA]; omega

theorem muB_le_muLO (cs : List Formula) : muB cs ≤ muLO cs := by
  induction cs with
  | nil => simp [muB, muLO]
  | cons c cs ih =>
    have h := mu_pos c
    simp [muB, muLO]; omega

theorem muB_lt_mu_and (p n : List Int) (cs : List Formula) :
    muB cs < mu (Formula.And p n cs) := by
  have h := muB_le_muLA cs
  simp [mu]; omega

theorem muLA_append (l1 l2 : List Formula) : muLA (l1 ++ l2) = muLA l1 + muLA l2 := by
  induction l1 with
  | nil => simp [muLA]
  | cons c l1 ih => simp [muLA, ih]; omega

theorem muLA_map_ones (l : List Int) (g : Int → Formula) (hg : ∀ x, mu (g x) = 1) :
    muLA (l.map g) = 10 * l.length := by
  induction l with
  | nil => simp [muLA]
  | cons x l ih => simp [muLA, ih, hg]; ring

theorem muLA_map_wrap (v : Int) (cs : List Formula) :
    muLA (cs.map (fun formula => Formula.Or [] [v] [formula])) + 2 * cs.length =
      2 * muLA cs := by
  induction cs with
  | nil => simp [muLA]
  | cons c cs ih => simp [muLA, mu, muLO] at ih ⊢; omega

theorem mu_distributeImplication (c : Formula) (v : Int) :
    mu (distributeImplication c v) ≤ 2 * mu c + 1 := by
  cases c with
  | Or p n cs => simp [distributeImplication, mu]; omega
  | And p n cs =>
    have h1 : mu (Formula.Or [v] [] []) = 1 := by simp [mu, muLO]
    have hp : muLA (p.map (fun positiveVariable =>
        Formula.Or [positiveVariable] [v] [])) = 10 * p.length :=
      muLA_map_ones p _ (fun x => by simp [mu, muLO])
    have hn : muLA (n.map (fun negativeVariable =>
        Formula.Or [] [negativeVariable, v] [])) = 10 * n.length :=
      muLA_map_ones n _ (fun x => by simp [mu, muLO])
    have hw := muLA_map_wrap v cs
    simp only [distributeImplication, mu, muLA_append, hp, hn, List.length_nil]
    omega

theorem muB_rewriteChildren (cs : List Formula) (nb : Nat) :
    muB (rewriteChildren cs nb) ≤ muLO cs := by
  induction cs generalizing nb with
  | nil => simp [rewriteChildren, muB, muLO]
  | cons c cs ih =>
    have h := mu_distributeImplication c (nb : Int)
    have h2 := ih (nb + 1)
    simp [rewriteChildren, muB, muLO]
    omega

theorem muB_rewriteChildren_lt (p n : List Int) (cs : List Formula) (nb : Nat) :
    muB (rewriteChildren cs nb) < mu (Formula.Or p n cs) := by
  have h := muB_rewriteChildren cs nb
  simp [mu]; omega

theorem unwrapTarget_eq_some (cs gs : List Formula) (h : unwrapTarget cs = some gs) :
    cs = [Formula.Or [] [] gs] := by
  match cs with
  | [] => simp [unwrapTarget] at h
  | [Formula.Or [] [] gs0] => simp [unwrapTarget] at h; simp [h]
  | [Formula.Or (x :: p) n gs0] => simp [unwrapTarget] at h
  | [Formula.Or [] (x :: n) gs0] => simp [unwrapTarget] at h
  | [Formula.And p n gs0] => simp [unwrapTarget] at h
  | c1 :: c2 :: rest => simp [unwrapTarget] at h

theorem mu_unwrap (p n : List Int) (gs : List Formula) :
    mu (Formula.Or p n gs) < mu (Formula.Or p n [Formula.Or [] [] gs]) := by
  simp [mu, muLO]; omega

theorem mu_unwrap_of (p n : List Int) (cs gs : List Formula)
    (hu : unwrapTarget cs = some gs) :
    mu (Formula.Or p n gs) < mu (Formula.Or p n cs) := by
  rw [unwrapTarget_eq_some cs gs hu]
  exact mu_unwrap p n gs

mutual
/-- Translated from formulas.py And.aux_operatorToCnf (lines 159-170) and
Or.aux_operatorToCnf (lines 189-222).  The process-global counter NB_VARS is
made explicit: the second argument is its value on entry and the second
component of the result is its value on exit.  An AND node emits one unit
clause per literal and concatenates the compiled children; an OR node either
unwraps a lone literal-free OR child, or allocates one fresh variable per
child starting at the counter, emits the defining clause dnf and compiles the
rewritten children. -/
def aux_operatorToCnf : Formula → Nat → List (List Int) × Nat
  | .And p n cs, nbVars =>
    let r := aux_operatorToCnfList cs nbVars
    (p.map (fun v => [v]) ++ n.map (fun v => [v * -1]) ++ r.1, r.2)
  | .Or p n cs, nbVars =>
    match hu : unwrapTarget cs with
    | some gs => aux_operatorToCnf (.Or p n gs) nbVars
    | none =>
      let dnf := p ++ (List.range' nbVars cs.length).map (fun v => Int.ofNat v) ++
        n.map (fun v => v * -1)
      match cs with
      | [] => ([dnf], nbVars)
      | c0 :: crest =>
        let r := aux_operatorToCnfList (rewriteChildren (c0 :: crest) nbVars)
          (nbVars + (c0 :: crest).length)
        (r.1 ++ [dnf], r.2)
termination_by f _ => mu f
decreasing_by
  · exact muB_lt_mu_and p n cs
  · rw [unwrapTarget_eq_some cs gs hu]
    exact mu_unwrap p n gs
  · exact muB_rewriteChildren_lt p n (c0 :: crest) nbVars
/-- Compilation of a list of formulas in order, threading the counter; this is
what And([], [], l).aux_operatorToCnf does with its children. -/
def aux_operatorToCnfList : List Formula → Nat → List (List Int) × Nat
  | [], nbVars => ([], nbVars)
  | c :: cs, nbVars =>
    let r1 := aux_operatorToCnf c nbVars
    let r2 := aux_operatorToCnfList cs r1.2
    (r1.1 ++ r2.1, r2.2)
termination_by l _ => muB l
decreasing_by
  · simp only [muB]
    have h := mu_pos c
    omega
  · simp only [muB]
    omega
end

/-- Translated from Operator.operatorToCnf (lines 104-112): seeds the shared
fresh-variable counter NB_VARS with nbVars and compiles the node. -/
def operatorToCnf (f : Formula) (nbVars : Nat) : List (List Int) × Nat :=
  aux_operatorToCnf f nbVars

theorem auxList_nil (nb : Nat) : aux_operatorToCnfList [] nb = ([], nb) := by
  simp [aux_operatorToCnfList]

theorem auxList_cons (c : Formula) (cs : List Formula) (nb : Nat) :
    aux_operatorToCnfList (c :: cs) nb =
      ((aux_operatorToCnf c nb).1 ++
        (aux_operatorToCnfList cs (aux_operatorToCnf c nb).2).1,
       (aux_operatorToCnfList cs (aux_operatorToCnf c nb).2).2) := by
  simp [aux_operatorToCnfList]

theorem aux_and (p n : List Int) (cs : List Formula) (nb : Nat) :
    aux_operatorToCnf (Formula.And p n cs) nb =
      (p.map (fun v => [v]) ++ n.map (fun v => [v * -1]) ++
        (aux_operatorToCnfList cs nb).1,
       (aux_operatorToCnfList cs nb).2) := by
  simp [aux_operatorToCnf]

theorem aux_or_unwrap (p n : List Int) (cs gs : List Formula) (nb : Nat)
    (hu : unwrapTarget cs = some gs) :
    aux_operatorToCnf (Formula.Or p n cs) nb =
      aux_operatorToCnf (Formula.Or p n gs) nb := by
  rw [aux_operatorToCnf]
  split
  · next gs0 heq =>
    rw [hu] at heq
    cases heq
    rfl
  · next heq =>
    rw [hu] at heq
    cases heq

theorem aux_or_nil (p n : List Int) (nb : Nat) :
    aux_operatorToCnf (Formula.Or p n []) nb =
      ([p ++ n.map (fun v => v * -1)], nb) := by
  rw [aux_operatorToCnf]
  simp [unwrapTarget]

theorem aux_or_general (p n : List Int) (cs : List Formula) (nb : Nat)
    (hu : unwrapTarget cs = none) (hne : cs ≠ []) :
    aux_operatorToCnf (Formula.Or p n cs) nb =
      ((aux_operatorToCnfList (rewriteChildren cs nb) (nb + cs.length)).1 ++
        [p ++ (List.range' nb cs.length).map (fun v => Int.ofNat v) ++
          n.map (fun v => v * -1)],
       (aux_operatorToCnfList (rewriteChildren cs nb) (nb + cs.length)).2) := by
  match cs, hne with
  | c0 :: crest, _ =>
    rw [aux_operatorToCnf]
    split
    · next gs0 heq =>
      rw [hu] at heq
      cases heq
    · next heq =>
      simp

mutual
/-- The fresh-variable counter never decreases while compiling a formula. -/
theorem aux_mono : ∀ (f : Formula) (nb : Nat), nb ≤ (aux_operatorToCnf f nb).2
  | .And p n cs, nb => by
    rw [aux_and]
    exact auxList_mono cs nb
  | .Or p n cs, nb => by
    cases hu : unwrapTarget cs with
    | some gs =>
      rw [aux_or_unwrap p n cs gs nb hu]
      exact aux_mono (Formula.Or p n gs) nb
    | none =>
      cases cs with
      | nil =>
        rw [aux_or_nil]
      | cons c0 crest =>
        rw [aux_or_general p n (c0 :: crest) nb hu (by simp)]
        exact Nat.le_trans (Nat.le_add_right nb (c0 :: crest).length)
          (auxList_mono (rewriteChildren (c0 :: crest) nb) (nb + (c0 :: crest).length))
termination_by f _ => mu f
decreasing_by all_goals
  first
  | exact muB_lt_mu_and _ _ _
  | exact muB_rewriteChildren_lt _ _ _ _
  | exact mu_unwrap_of _ _ _ _ (by assumption)
  | (simp only [muB]; omega)
/-- The fresh-variable counter never decreases while compiling a list. -/
theorem auxList_mono : ∀ (l : List Formula) (nb : Nat),
    nb ≤ (aux_operatorToCnfList l nb).2
  | [], nb => by
    rw [auxList_nil]
  | c :: cs, nb => by
    rw [auxList_cons]
    exact Nat.le_trans (aux_mono c nb)
      (auxList_mono cs (aux_operatorToCnf c nb).2)
termination_by l _ => muB l
decreasing_by all_goals
  first
  | exact muB_lt_mu_and _ _ _
  | exact muB_rewriteChildren_lt _ _ _ _
  | exact mu_unwrap_of _ _ _ _ (by assumption)
  | (simp only [muB]; omega)
end

theorem litVar_of_nonneg (v : Int) (h : 0 ≤ v) : litVar v = v := by
  unfold litVar
  split
  · rfl
  · omega

theorem litVar_of_neg_unit (v : Int) (h : 0 ≤ v) : litVar (v * -1) = v := by
  unfold litVar
  split
  · omega
  · omega

theorem litsOfList_append (l1 l2 : List Formula) (x : Int) :
    x ∈ litsOfList (l1 ++ l2) ↔ x ∈ litsOfList l1 ∨ x ∈ litsOfList l2 := by
  induction l1 with
  | nil => simp [litsOfList]
  | cons c l1 ih => simp [litsOfList, ih]; tauto

theorem litsOfList_map_mem (l : List Int) (g : Int → Formula) (x : Int) :
    x ∈ litsOfList (l.map g) ↔ ∃ y ∈ l, x ∈ litsOf (g y) := by
  induction l with
  | nil => simp [litsOfList]
  | cons a l ih => simp [litsOfList, ih]

theorem litsOfList_mapF_mem (l : List Formula) (g : Formula → Formula) (x : Int) :
    x ∈ litsOfList (l.map g) ↔ ∃ c ∈ l, x ∈ litsOf (g c) := by
  induction l with
  | nil => simp [litsOfList]
  | cons a l ih => simp [litsOfList, ih]

theorem litsOfList_mem (l : List Formula) (x : Int) :
    x ∈ litsOfList l ↔ ∃ c ∈ l, x ∈ litsOf c := by
  induction l with
  | nil => simp [litsOfList]
  | cons c l ih => simp [litsOfList, ih]

theorem lits_distributeImplication (c : Formula) (v : Int) (x : Int)
    (hx : x ∈ litsOf (distributeImplication c v)) : x ∈ litsOf c ∨ x = v := by
  cases c with
  | Or p n cs =>
    simp [distributeImplication, litsOf] at hx ⊢
    tauto
  | And p n cs =>
    simp only [distributeImplication, litsOf, List.nil_append] at hx
    rw [litsOfList_append, litsOfList_append] at hx
    simp only [litsOf, List.mem_append]
    rcases hx with (h | h) | h
    · rw [litsOfList_map_mem] at h
      obtain ⟨y, hy, hxy⟩ := h
      simp [litsOf, litsOfList] at hxy
      rcases hxy with h1 | h1
      · subst h1; tauto
      · tauto
    · rw [litsOfList_map_mem] at h
      obtain ⟨y, hy, hxy⟩ := h
      simp [litsOf, litsOfList] at hxy
      rcases hxy with h1 | h1
      · subst h1; tauto
      · tauto
    · rw [litsOfList_mapF_mem] at h
      obtain ⟨c0, hc0, hxc0⟩ := h
      simp [litsOf, litsOfList] at hxc0
      rcases hxc0 with h1 | h1
      · tauto
      · have : x ∈ litsOfList cs := (litsOfList_mem cs x).mpr ⟨c0, hc0, h1⟩
        tauto

theorem lits_rewriteChildren (cs : List Formula) (nb : Nat) (x : Int)
    (hx : x ∈ litsOfList (rewriteChildren cs nb)) :
    x ∈ litsOfList cs ∨ ((nb : Int) ≤ x ∧ x < (nb : Int) + cs.length) := by
  induction cs generalizing nb with
  | nil => simp [rewriteChildren, litsOfList] at hx
  | cons c cs ih =>
    simp only [rewriteChildren, litsOfList, List.mem_append] at hx
    rcases hx with h | h
    · rcases lits_distributeImplication c (nb : Int) x h with h1 | h1
      · simp only [litsOfList, List.mem_append]
        tauto
      · right
        subst h1
        simp
    · rcases ih (nb + 1) h with h1 | h1
      · simp only [litsOfList, List.mem_append]
        tauto
      · right
        simp only [List.length_cons] at h1 ⊢
        push_cast at h1 ⊢
        omega

theorem litsOf_unwrap_iff (p n : List Int) (gs : List Formula) (x : Int) :
    x ∈ litsOf (Formula.Or p n [Formula.Or [] [] gs]) ↔
      x ∈ litsOf (Formula.Or p n gs) := by
  simp [litsOf, litsOfList]

mutual
/-- Every literal of the compiled clauses either speaks about a magnitude that
occurs in the node's literal sets, or about a fresh magnitude allocated between
the incoming and the outgoing value of the counter. -/
theorem aux_range : ∀ (f : Formula) (nb : Nat),
    (∀ m ∈ litsOf f, (0 : Int) ≤ m) →
    ∀ cl ∈ (aux_operatorToCnf f nb).1, ∀ l ∈ cl,
      litVar l ∈ litsOf f ∨
        ((nb : Int) ≤ litVar l ∧ litVar l < ((aux_operatorToCnf f nb).2 : Int))
  | .And p n cs, nb => by
    intro hpos cl hcl l hl
    rw [aux_and] at hcl ⊢
    simp only [List.mem_append, List.mem_map] at hcl
    rcases hcl with (⟨v, hv, hveq⟩ | ⟨v, hv, hveq⟩) | hcl
    · subst hveq
      simp only [List.mem_singleton] at hl
      subst hl
      have h0 : (0 : Int) ≤ l := hpos l (by simp [litsOf, hv])
      left
      rw [litVar_of_nonneg l h0]
      simp [litsOf, hv]
    · subst hveq
      simp only [List.mem_singleton] at hl
      subst hl
      have h0 : (0 : Int) ≤ v := hpos v (by simp [litsOf, hv])
      left
      rw [litVar_of_neg_unit v h0]
      simp [litsOf, hv]
    · have hposcs : ∀ m ∈ litsOfList cs, (0 : Int) ≤ m := fun m hm =>
        hpos m (by simp [litsOf, hm])
      rcases auxList_range cs nb hposcs cl hcl l hl with h | h
      · left
        simp [litsOf, h]
      · right
        exact h
  | .Or p n cs, nb => by
    intro hpos cl hcl l hl
    cases hu : unwrapTarget cs with
    | some gs =>
      have hcseq := unwrapTarget_eq_some cs gs hu
      subst hcseq
      rw [aux_or_unwrap p n _ gs nb hu] at hcl ⊢
      have hpos2 : ∀ m ∈ litsOf (Formula.Or p n gs), (0 : Int) ≤ m := fun m hm =>
        hpos m ((litsOf_unwrap_iff p n gs m).mpr hm)
      rcases aux_range (Formula.Or p n gs) nb hpos2 cl hcl l hl with h | h
      · left
        exact (litsOf_unwrap_iff p n gs (litVar l)).mpr h
      · right
        exact h
    | none =>
      cases cs with
      | nil =>
        rw [aux_or_nil] at hcl ⊢
        simp only [List.mem_singleton] at hcl
        subst hcl
        simp only [List.mem_append, List.mem_map] at hl
        rcases hl with hl | ⟨v, hv, hveq⟩
        · have h0 : (0 : Int) ≤ l := hpos l (by simp [litsOf, hl])
          left
          rw [litVar_of_nonneg l h0]
          simp [litsOf, hl]
        · subst hveq
          have h0 : (0 : Int) ≤ v := hpos v (by simp [litsOf, hv])
          left
          rw [litVar_of_neg_unit v h0]
          simp [litsOf, hv]
      | cons c0 crest =>
        rw [aux_or_general p n (c0 :: crest) nb hu (by simp)] at hcl ⊢
        simp only [List.mem_append, List.mem_singleton] at hcl
        rcases hcl with hcl | hcl
        · have hposrw : ∀ m ∈ litsOfList (rewriteChildren (c0 :: crest) nb),
              (0 : Int) ≤ m := by
            intro m hm
            rcases lits_rewriteChildren (c0 :: crest) nb m hm with h | h
            · exact hpos m (by simp [litsOf, h])
            · exact le_trans (Int.natCast_nonneg nb) h.1
          have hmono := auxList_mono (rewriteChildren (c0 :: crest) nb)
            (nb + (c0 :: crest).length)
          rcases auxList_range (rewriteChildren (c0 :: crest) nb)
              (nb + (c0 :: crest).length) hposrw cl hcl l hl with h | h
          · rcases lits_rewriteChildren (c0 :: crest) nb (litVar l) h with h1 | h1
            · left
              simp [litsOf, h1]
            · right
              constructor
              · exact h1.1
              · calc litVar l < (nb : Int) + (c0 :: crest).length := h1.2
                  _ ≤ _ := by exact_mod_cast Int.ofNat_le.mpr hmono
          · right
            constructor
            · calc (nb : Int) ≤ ((nb + (c0 :: crest).length : Nat) : Int) := by
                    push_cast
                    omega
                _ ≤ litVar l := h.1
            · exact h.2
        · subst hcl
          simp only [List.mem_append, List.mem_map] at hl
          rcases hl with (hl | ⟨a, ha, haeq⟩) | ⟨v, hv, hveq⟩
          · have h0 : (0 : Int) ≤ l := hpos l (by simp [litsOf, hl])
            left
            rw [litVar_of_nonneg l h0]
            simp [litsOf, hl]
          · subst haeq
            rw [List.mem_range'_1] at ha
            have hmono := auxList_mono (rewriteChildren (c0 :: crest) nb)
              (nb + (c0 :: crest).length)
            right
            simp only [Int.ofNat_eq_natCast]
            rw [litVar_of_nonneg (a : Int) (Int.natCast_nonneg a)]
            constructor
            · exact_mod_cast ha.1
            · have ha2 : a < (aux_operatorToCnfList (rewriteChildren (c0 :: crest) nb)
                  (nb + (c0 :: crest).length)).2 := lt_of_lt_of_le ha.2 hmono
              exact_mod_cast ha2
          · subst hveq
            have h0 : (0 : Int) ≤ v := hpos v (by simp [litsOf, hv])
            left
            rw [litVar_of_neg_unit v h0]
            simp [litsOf, hv]
termination_by f _ => mu f
decreasing_by all_goals
  first
  | exact muB_lt_mu_and _ _ _
  | exact muB_rewriteChildren_lt _ _ _ _
  | exact mu_unwrap_of _ _ _ _ (by assumption)
  | (simp only [muB]; omega)
/-- List version of aux_range, threading the counter left to right. -/
theorem auxList_range : ∀ (fs : List Formula) (nb : Nat),
    (∀ m ∈ litsOfList fs, (0 : Int) ≤ m) →
    ∀ cl ∈ (aux_operatorToCnfList fs nb).1, ∀ l ∈ cl,
      litVar l ∈ litsOfList fs ∨
        ((nb : Int) ≤ litVar l ∧ litVar l < ((aux_operatorToCnfList fs nb).2 : Int))
  | [], nb => by
    intro hpos cl hcl
    rw [auxList_nil] at hcl
    simp at hcl
  | c :: cs, nb => by
    intro hpos cl hcl l hl
    rw [auxList_cons] at hcl ⊢
    simp only [List.mem_append] at hcl
    have hposc : ∀ m ∈ litsOf c, (0 : Int) ≤ m := fun m hm =>
      hpos m (by simp [litsOfList, hm])
    have hposcs : ∀ m ∈ litsOfList cs, (0 : Int) ≤ m := fun m hm =>
      hpos m (by simp [litsOfList, hm])
    have hm1 := aux_mono c nb
    have hm2 := auxList_mono cs (aux_operatorToCnf c nb).2
    rcases hcl with hcl | hcl
    · rcases aux_range c nb hposc cl hcl l hl with h | h
      · left
        simp [litsOfList, h]
      · right
        exact ⟨h.1, lt_of_lt_of_le h.2 (by exact_mod_cast Int.ofNat_le.mpr hm2)⟩
    · rcases auxList_range cs (aux_operatorToCnf c nb).2 hposcs cl hcl l hl with h | h
      · left
        simp [litsOfList, h]
      · right
        exact ⟨le_trans (by exact_mod_cast Int.ofNat_le.mpr hm1) h.1, h.2⟩
termination_by fs _ => muB fs
decreasing_by all_goals
  first
  | exact muB_lt_mu_and _ _ _
  | exact muB_rewriteChildren_lt _ _ _ _
  | exact mu_unwrap_of _ _ _ _ (by assumption)
  | (simp only [muB]; omega)
end

theorem evalConj_append (A : Int → Bool) (l1 l2 : List Formula) :
    evalConj A (l1 ++ l2) = (evalConj A l1 && evalConj A l2) := by
  induction l1 with
  | nil => simp [evalConj]
  | cons c l1 ih => simp [evalConj, ih, Bool.and_assoc]

theorem evalDisj_append (A : Int → Bool) (l1 l2 : List Formula) :
    evalDisj A (l1 ++ l2) = (evalDisj A l1 || evalDisj A l2) := by
  induction l1 with
  | nil => simp [evalDisj]
  | cons c l1 ih => simp [evalDisj, ih, Bool.or_assoc]

theorem evalConj_true_iff (A : Int → Bool) (l : List Formula) :
    evalConj A l = true ↔ ∀ c ∈ l, evalF A c = true := by
  induction l with
  | nil => simp [evalConj]
  | cons c l ih => simp [evalConj, ih]

theorem evalDisj_true_iff (A : Int → Bool) (l : List Formula) :
    evalDisj A l = true ↔ ∃ c ∈ l, evalF A c = true := by
  induction l with
  | nil => simp [evalDisj]
  | cons c l ih => simp [evalDisj, ih]

theorem all_congr_mem {α : Type} (l : List α) (f g : α → Bool)
    (h : ∀ x ∈ l, f x = g x) : l.all f = l.all g := by
  induction l with
  | nil => rfl
  | cons a l ih =>
    simp only [List.all_cons]
    rw [h a (by simp), ih (fun x hx => h x (by simp [hx]))]

theorem any_congr_mem {α : Type} (l : List α) (f g : α → Bool)
    (h : ∀ x ∈ l, f x = g x) : l.any f = l.any g := by
  induction l with
  | nil => rfl
  | cons a l ih =>
    simp only [List.any_cons]
    rw [h a (by simp), ih (fun x hx => h x (by simp [hx]))]

mutual
/-- Assignments agreeing on all magnitudes of a formula give it the same value. -/
theorem evalF_agree : ∀ (f : Formula) (A B : Int → Bool),
    (∀ m ∈ litsOf f, A m = B m) → evalF A f = evalF B f
  | .And p n cs, A, B => by
    intro h
    simp only [evalF]
    have hp : p.all (fun v => A v) = p.all (fun v => B v) :=
      all_congr_mem p _ _ (fun v hv => by rw [h v (by simp [litsOf, hv])])
    have hn : n.all (fun v => !(A v)) = n.all (fun v => !(B v)) :=
      all_congr_mem n _ _ (fun v hv => by rw [h v (by simp [litsOf, hv])])
    have hc : evalConj A cs = evalConj B cs :=
      evalConj_agree cs A B (fun m hm => h m (by simp [litsOf, hm]))
    rw [hp, hn, hc]
  | .Or p n cs, A, B => by
    intro h
    simp only [evalF]
    have hp : p.any (fun v => A v) = p.any (fun v => B v) :=
      any_congr_mem p _ _ (fun v hv => by rw [h v (by simp [litsOf, hv])])
    have hn : n.any (fun v => !(A v)) = n.any (fun v => !(B v)) :=
      any_congr_mem n _ _ (fun v hv => by rw [h v (by simp [litsOf, hv])])
    have hc : evalDisj A cs = evalDisj B cs :=
      evalDisj_agree cs A B (fun m hm => h m (by simp [litsOf, hm]))
    rw [hp, hn, hc]
termination_by f _ _ => fsize f
decreasing_by all_goals (simp only [fsize, lsize]; omega)
/-- List conjunction version of evalF_agree. -/
theorem evalConj_agree : ∀ (l : List Formula) (A B : Int → Bool),
    (∀ m ∈ litsOfList l, A m = B m) → evalConj A l = evalConj B l
  | [], A, B => by
    intro h
    rfl
  | c :: cs, A, B => by
    intro h
    simp only [evalConj]
    rw [evalF_agree c A B (fun m hm => h m (by simp [litsOfList, hm])),
      evalConj_agree cs A B (fun m hm => h m (by simp [litsOfList, hm]))]
termination_by l _ _ => lsize l
decreasing_by all_goals (simp only [fsize, lsize]; omega)
/-- List disjunction version of evalF_agree. -/
theorem evalDisj_agree : ∀ (l : List Formula) (A B : Int → Bool),
    (∀ m ∈ litsOfList l, A m = B m) → evalDisj A l = evalDisj B l
  | [], A, B => by
    intro h
    rfl
  | c :: cs, A, B => by
    intro h
    simp only [evalDisj]
    rw [evalF_agree c A B (fun m hm => h m (by simp [litsOfList, hm])),
      evalDisj_agree cs A B (fun m hm => h m (by simp [litsOfList, hm]))]
termination_by l _ _ => lsize l
decreasing_by all_goals (simp only [fsize, lsize]; omega)
end

theorem evalConj_eq_all (A : Int → Bool) (l : List Formula) :
    evalConj A l = l.all (fun c => evalF A c) := by
  induction l with
  | nil => rfl
  | cons c l ih => simp [evalConj, ih]

theorem bool_all_or_right (l : List Int) (f : Int → Bool) (b : Bool) :
    l.all (fun x => f x || b) = (l.all f || b) := by
  cases b with
  | true => simp
  | false => simp

theorem bool_all_or_left (l : List Formula) (f : Formula → Bool) (b : Bool) :
    l.all (fun x => b || f x) = (b || l.all f) := by
  cases b with
  | true => simp
  | false => simp

theorem evalConj_map_posOr (A : Int → Bool) (p : List Int) (v : Int) :
    evalConj A (p.map (fun y => Formula.Or [y] [v] [])) =
      p.all (fun y => A y || !(A v)) := by
  induction p with
  | nil => rfl
  | cons y p ih => simp [evalConj, evalF, evalDisj, ih]

theorem evalConj_map_negOr (A : Int → Bool) (n : List Int) (v : Int) :
    evalConj A (n.map (fun y => Formula.Or [] [y, v] [])) =
      n.all (fun y => !(A y) || !(A v)) := by
  induction n with
  | nil => rfl
  | cons y n ih => simp [evalConj, evalF, evalDisj, ih, Bool.or_assoc]

theorem evalConj_map_wrap (A : Int → Bool) (cs : List Formula) (v : Int) :
    evalConj A (cs.map (fun formula => Formula.Or [] [v] [formula])) =
      cs.all (fun formula => !(A v) || evalF A formula) := by
  induction cs with
  | nil => rfl
  | cons c cs ih => simp [evalConj, evalF, evalDisj, ih]

/-- Semantics of distributeImplication: the rewritten child is true exactly
when var implies the original child. -/
theorem eval_distributeImplication (A : Int → Bool) (c : Formula) (v : Int) :
    evalF A (distributeImplication c v) = (!(A v) || evalF A c) := by
  cases c with
  | Or p n cs =>
    simp only [distributeImplication, evalF, List.any_append, List.any_cons,
      List.any_nil]
    cases hv : A v <;> simp [hv, Bool.or_assoc]
  | And p n cs =>
    simp only [distributeImplication, evalF, List.all_nil, Bool.and_true, true_and]
    rw [evalConj_append, evalConj_append, evalConj_map_posOr, evalConj_map_negOr,
      evalConj_map_wrap, bool_all_or_right, bool_all_or_right, bool_all_or_left,
      evalConj_eq_all]
    cases hv : A v <;> simp [hv]

theorem eval_or_unwrap (A : Int → Bool) (p n : List Int) (gs : List Formula) :
    evalF A (Formula.Or p n [Formula.Or [] [] gs]) =
      evalF A (Formula.Or p n gs) := by
  simp [evalF, evalDisj]

theorem litSat_of_pos (B : Int → Bool) (v : Int) (h : 0 < v) :
    litSat B v = B v := by
  simp [litSat, h]

theorem litSat_neg_unit (B : Int → Bool) (v : Int) (h : 0 < v) :
    litSat B (v * -1) = !(B v) := by
  have h1 : ¬ (0 < v * -1) := by omega
  have h2 : -(v * -1) = v := by ring
  unfold litSat
  rw [if_neg h1, h2]

theorem clauseSat_true_iff (B : Int → Bool) (cl : List Int) :
    clauseSat B cl = true ↔ ∃ l ∈ cl, litSat B l = true := by
  simp [clauseSat, List.any_eq_true]

theorem cnfSat_true_iff (B : Int → Bool) (cls : List (List Int)) :
    cnfSat B cls = true ↔ ∀ cl ∈ cls, clauseSat B cl = true := by
  simp [cnfSat, List.all_eq_true]

theorem cnfSat_append (B : Int → Bool) (cls1 cls2 : List (List Int)) :
    cnfSat B (cls1 ++ cls2) = (cnfSat B cls1 && cnfSat B cls2) := by
  simp [cnfSat, List.all_append]

theorem litSat_ext (A B : Int → Bool) (l : Int) (h : A (litVar l) = B (litVar l)) :
    litSat A l = litSat B l := by
  by_cases hl : 0 < l
  · simp only [litSat, litVar, if_pos hl] at h ⊢
    rw [h]
  · simp only [litSat, litVar, if_neg hl] at h ⊢
    rw [h]

theorem clauseSat_ext (A B : Int → Bool) (cl : List Int)
    (h : ∀ l ∈ cl, A (litVar l) = B (litVar l)) : clauseSat A cl = clauseSat B cl := by
  simp only [clauseSat]
  exact any_congr_mem cl _ _ (fun l hl => litSat_ext A B l (h l hl))

theorem cnfSat_ext (A B : Int → Bool) (cls : List (List Int))
    (h : ∀ cl ∈ cls, ∀ l ∈ cl, A (litVar l) = B (litVar l)) :
    cnfSat A cls = cnfSat B cls := by
  simp only [cnfSat]
  exact all_congr_mem cls _ _ (fun cl hcl => clauseSat_ext A B cl (h cl hcl))

/-- The canonical extension of an assignment to the auxiliary block
[nb, nb + cs.length): each auxiliary variable receives the truth value of the
child it stands for. -/
def setAux (A : Int → Bool) (nb : Nat) (cs : List Formula) : Int → Bool :=
  fun v =>
    if (nb : Int) ≤ v ∧ v < (nb : Int) + cs.length then
      evalF A (cs.getD (v - (nb : Int)).toNat default)
    else A v

theorem setAux_below (A : Int → Bool) (nb : Nat) (cs : List Formula) (v : Int)
    (h : v < (nb : Int)) : setAux A nb cs v = A v := by
  simp only [setAux]
  rw [if_neg (by omega)]

theorem setAux_above (A : Int → Bool) (nb : Nat) (cs : List Formula) (v : Int)
    (h : (nb : Int) + cs.length ≤ v) : setAux A nb cs v = A v := by
  simp only [setAux]
  rw [if_neg (by omega)]

theorem setAux_at (A : Int → Bool) (nb : Nat) (cs : List Formula) (i : Nat)
    (h : i < cs.length) :
    setAux A nb cs ((nb + i : Nat) : Int) = evalF A (cs.getD i default) := by
  simp only [setAux]
  rw [if_pos (by constructor <;> (push_cast; omega))]
  congr 1
  push_cast
  congr 1
  omega

theorem rewriteChildren_mem_at : ∀ (cs : List Formula) (nb a : Nat),
    nb ≤ a → a < nb + cs.length →
    ∃ c ∈ cs, distributeImplication c (a : Int) ∈ rewriteChildren cs nb := by
  intro cs
  induction cs with
  | nil =>
    intro nb a h1 h2
    simp at h2
    omega
  | cons c0 crest ih =>
    intro nb a h1 h2
    by_cases ha : a = nb
    · subst ha
      exact ⟨c0, by simp, by simp [rewriteChildren]⟩
    · have h1a : nb + 1 ≤ a := by omega
      have h2a : a < (nb + 1) + crest.length := by
        simp only [List.length_cons] at h2
        omega
      obtain ⟨c, hc, hm⟩ := ih (nb + 1) a h1a h2a
      exact ⟨c, by simp [hc], by simp [rewriteChildren, hm]⟩

mutual
/-- Soundness of the compiler: an assignment satisfying all compiled clauses
satisfies the source formula, provided its literal magnitudes are positive and
the counter starts at a positive value. -/
theorem aux_sound : ∀ (f : Formula) (nb : Nat) (B : Int → Bool),
    (∀ m ∈ litsOf f, (1 : Int) ≤ m) → 1 ≤ nb →
    cnfSat B (aux_operatorToCnf f nb).1 = true → evalF B f = true
  | .And p n cs, nb, B => by
    intro hpos hnb hsat
    rw [aux_and] at hsat
    simp only [cnfSat_append, Bool.and_eq_true] at hsat
    obtain ⟨⟨hu1, hu2⟩, hu3⟩ := hsat
    simp only [evalF]
    rw [Bool.and_eq_true, Bool.and_eq_true]
    refine ⟨⟨?_, ?_⟩, ?_⟩
    · rw [List.all_eq_true]
      intro v hv
      rw [cnfSat_true_iff] at hu1
      have h1 := hu1 [v] (List.mem_map.mpr ⟨v, hv, rfl⟩)
      rw [clauseSat_true_iff] at h1
      obtain ⟨l, hl, hls⟩ := h1
      simp only [List.mem_singleton] at hl
      subst hl
      have hp : (0 : Int) < l := by
        have := hpos l (by simp [litsOf, hv])
        omega
      rw [litSat_of_pos B l hp] at hls
      exact hls
    · rw [List.all_eq_true]
      intro v hv
      rw [cnfSat_true_iff] at hu2
      have h1 := hu2 [v * -1] (List.mem_map.mpr ⟨v, hv, rfl⟩)
      rw [clauseSat_true_iff] at h1
      obtain ⟨l, hl, hls⟩ := h1
      simp only [List.mem_singleton] at hl
      subst hl
      have hp : (0 : Int) < v := by
        have := hpos v (by simp [litsOf, hv])
        omega
      rw [litSat_neg_unit B v hp] at hls
      exact hls
    · exact aux_sound_list cs nb B
        (fun m hm => hpos m (by simp [litsOf, hm])) hnb hu3
  | .Or p n cs, nb, B => by
    intro hpos hnb hsat
    cases hu : unwrapTarget cs with
    | some gs =>
      have hcseq := unwrapTarget_eq_some cs gs hu
      subst hcseq
      rw [aux_or_unwrap p n _ gs nb hu] at hsat
      rw [eval_or_unwrap]
      exact aux_sound (Formula.Or p n gs) nb B
        (fun m hm => hpos m ((litsOf_unwrap_iff p n gs m).mpr hm)) hnb hsat
    | none =>
      cases cs with
      | nil =>
        rw [aux_or_nil] at hsat
        rw [cnfSat_true_iff] at hsat
        have h1 := hsat (p ++ n.map (fun v => v * -1)) (by simp)
        rw [clauseSat_true_iff] at h1
        obtain ⟨l, hl, hls⟩ := h1
        simp only [List.mem_append, List.mem_map] at hl
        simp only [evalF]
        rw [Bool.or_eq_true, Bool.or_eq_true]
        rcases hl with hl | ⟨v, hv, hveq⟩
        · have hp : (0 : Int) < l := by
            have := hpos l (by simp [litsOf, hl])
            omega
          rw [litSat_of_pos B l hp] at hls
          exact Or.inl (Or.inl (by rw [List.any_eq_true]; exact ⟨l, hl, hls⟩))
        · subst hveq
          have hp : (0 : Int) < v := by
            have := hpos v (by simp [litsOf, hv])
            omega
          rw [litSat_neg_unit B v hp] at hls
          exact Or.inl (Or.inr (by rw [List.any_eq_true]; exact ⟨v, hv, hls⟩))
      | cons c0 crest =>
        rw [aux_or_general p n (c0 :: crest) nb hu (by simp)] at hsat
        rw [cnfSat_append, Bool.and_eq_true] at hsat
        obtain ⟨hrw, hdnf⟩ := hsat
        have hposrw : ∀ m ∈ litsOfList (rewriteChildren (c0 :: crest) nb),
            (1 : Int) ≤ m := by
          intro m hm
          rcases lits_rewriteChildren (c0 :: crest) nb m hm with h | h
          · exact hpos m (by simp [litsOf, h])
          · have hc : (1 : Int) ≤ (nb : Int) := by exact_mod_cast hnb
            omega
        have hconj := aux_sound_list (rewriteChildren (c0 :: crest) nb)
          (nb + (c0 :: crest).length) B hposrw (by omega) hrw
        rw [cnfSat_true_iff] at hdnf
        have hclause := hdnf (p ++
          (List.range' nb (c0 :: crest).length).map (fun v => Int.ofNat v) ++
          n.map (fun v => v * -1)) (by simp)
        rw [clauseSat_true_iff] at hclause
        obtain ⟨l, hl, hls⟩ := hclause
        simp only [List.mem_append, List.mem_map] at hl
        simp only [evalF]
        rw [Bool.or_eq_true, Bool.or_eq_true]
        rcases hl with (hl | ⟨a, ha, haeq⟩) | ⟨v, hv, hveq⟩
        · have hp : (0 : Int) < l := by
            have := hpos l (by simp [litsOf, hl])
            omega
          rw [litSat_of_pos B l hp] at hls
          exact Or.inl (Or.inl (by rw [List.any_eq_true]; exact ⟨l, hl, hls⟩))
        · subst haeq
          rw [List.mem_range'_1] at ha
          simp only [Int.ofNat_eq_natCast] at hls
          have hp0 : (0 : Int) < (a : Int) := by
            have : 1 ≤ a := by omega
            exact_mod_cast this
          rw [litSat_of_pos B _ hp0] at hls
          obtain ⟨c, hc, hcmem⟩ := rewriteChildren_mem_at (c0 :: crest) nb a ha.1 ha.2
          rw [evalConj_true_iff] at hconj
          have hdi := hconj _ hcmem
          rw [eval_distributeImplication, hls] at hdi
          simp only [Bool.not_true, Bool.false_or] at hdi
          exact Or.inr (by rw [evalDisj_true_iff]; exact ⟨c, hc, hdi⟩)
        · subst hveq
          have hp : (0 : Int) < v := by
            have := hpos v (by simp [litsOf, hv])
            omega
          rw [litSat_neg_unit B v hp] at hls
          exact Or.inl (Or.inr (by rw [List.any_eq_true]; exact ⟨v, hv, hls⟩))
termination_by f _ _ => mu f
decreasing_by all_goals
  first
  | exact muB_lt_mu_and _ _ _
  | exact muB_rewriteChildren_lt _ _ _ _
  | exact mu_unwrap_of _ _ _ _ (by assumption)
  | (simp only [muB]; omega)
/-- List version of aux_sound. -/
theorem aux_sound_list : ∀ (fs : List Formula) (nb : Nat) (B : Int → Bool),
    (∀ m ∈ litsOfList fs, (1 : Int) ≤ m) → 1 ≤ nb →
    cnfSat B (aux_operatorToCnfList fs nb).1 = true → evalConj B fs = true
  | [], nb, B => by
    intro hpos hnb hsat
    rfl
  | c :: cs, nb, B => by
    intro hpos hnb hsat
    rw [auxList_cons] at hsat
    rw [cnfSat_append, Bool.and_eq_true] at hsat
    obtain ⟨h1, h2⟩ := hsat
    simp only [evalConj]
    rw [Bool.and_eq_true]
    constructor
    · exact aux_sound c nb B (fun m hm => hpos m (by simp [litsOfList, hm])) hnb h1
    · exact aux_sound_list cs (aux_operatorToCnf c nb).2 B
        (fun m hm => hpos m (by simp [litsOfList, hm]))
        (le_trans hnb (aux_mono c nb)) h2
termination_by fs _ _ => muB fs
decreasing_by all_goals
  first
  | exact muB_lt_mu_and _ _ _
  | exact muB_rewriteChildren_lt _ _ _ _
  | exact mu_unwrap_of _ _ _ _ (by assumption)
  | (simp only [muB]; omega)
end

theorem getD_eq_elem {α : Type} [Inhabited α] (l : List α) (i : Nat)
    (h : i < l.length) : l.getD i default = l[i] := by
  simp [List.getD_eq_getElem?_getD, List.getElem?_eq_getElem h]

/-- If each rewritten child is individually true under A1, the whole rewritten
child list is. -/
theorem evalConj_rewriteChildren (A1 : Int → Bool) :
    ∀ (cs : List Formula) (nb : Nat),
    (∀ i, i < cs.length →
      (!(A1 ((nb + i : Nat) : Int)) || evalF A1 (cs.getD i default)) = true) →
    evalConj A1 (rewriteChildren cs nb) = true := by
  intro cs
  induction cs with
  | nil =>
    intro nb h
    rfl
  | cons c0 crest ih =>
    intro nb h
    simp only [rewriteChildren, evalConj]
    rw [Bool.and_eq_true]
    constructor
    · rw [eval_distributeImplication]
      have h0 := h 0 (by simp)
      simpa using h0
    · apply ih (nb + 1)
      intro i hi
      have hs := h (i + 1) (by simp only [List.length_cons]; omega)
      have he : nb + (i + 1) = (nb + 1) + i := by omega
      rw [he] at hs
      simpa using hs

mutual
/-- Completeness of the compiler: a satisfying assignment of the formula
extends, by choosing values only on the auxiliary block [nb, final counter),
to an assignment satisfying every compiled clause. -/
theorem aux_complete : ∀ (f : Formula) (nb : Nat) (A : Int → Bool),
    (∀ m ∈ litsOf f, (1 : Int) ≤ m ∧ m < (nb : Int)) → 1 ≤ nb →
    evalF A f = true →
    ∃ B : Int → Bool,
      (∀ v : Int, v < (nb : Int) → B v = A v) ∧
      (∀ v : Int, (((aux_operatorToCnf f nb).2 : Nat) : Int) ≤ v → B v = A v) ∧
      cnfSat B (aux_operatorToCnf f nb).1 = true
  | .And p n cs, nb, A => by
    intro hb hnb hev
    simp only [evalF] at hev
    rw [Bool.and_eq_true, Bool.and_eq_true] at hev
    obtain ⟨⟨he1, he2⟩, he3⟩ := hev
    rw [aux_and]
    obtain ⟨B, hB1, hB2, hB3⟩ := aux_complete_list cs nb A
      (fun m hm => hb m (by simp [litsOf, hm])) hnb he3
    refine ⟨B, hB1, hB2, ?_⟩
    simp only [cnfSat_append, Bool.and_eq_true]
    refine ⟨⟨?_, ?_⟩, hB3⟩
    · rw [cnfSat_true_iff]
      intro cl hcl
      rw [List.mem_map] at hcl
      obtain ⟨v, hv, hveq⟩ := hcl
      subst hveq
      rw [clauseSat_true_iff]
      refine ⟨v, by simp, ?_⟩
      have hvb := hb v (by simp [litsOf, hv])
      rw [litSat_of_pos B v (by omega), hB1 v hvb.2]
      rw [List.all_eq_true] at he1
      exact he1 v hv
    · rw [cnfSat_true_iff]
      intro cl hcl
      rw [List.mem_map] at hcl
      obtain ⟨v, hv, hveq⟩ := hcl
      subst hveq
      rw [clauseSat_true_iff]
      refine ⟨v * -1, by simp, ?_⟩
      have hvb := hb v (by simp [litsOf, hv])
      rw [litSat_neg_unit B v (by omega), hB1 v hvb.2]
      rw [List.all_eq_true] at he2
      exact he2 v hv
  | .Or p n cs, nb, A => by
    intro hb hnb hev
    cases hu : unwrapTarget cs with
    | some gs =>
      have hcseq := unwrapTarget_eq_some cs gs hu
      subst hcseq
      rw [aux_or_unwrap p n _ gs nb hu]
      rw [eval_or_unwrap] at hev
      exact aux_complete (Formula.Or p n gs) nb A
        (fun m hm => hb m ((litsOf_unwrap_iff p n gs m).mpr hm)) hnb hev
    | none =>
      cases cs with
      | nil =>
        rw [aux_or_nil]
        refine ⟨A, fun v _ => rfl, fun v _ => rfl, ?_⟩
        rw [cnfSat_true_iff]
        intro cl hcl
        simp only [List.mem_singleton] at hcl
        subst hcl
        rw [clauseSat_true_iff]
        simp only [evalF] at hev
        rw [Bool.or_eq_true, Bool.or_eq_true] at hev
        rcases hev with (hev | hev) | hev
        · rw [List.any_eq_true] at hev
          obtain ⟨v, hv, hvt⟩ := hev
          refine ⟨v, by simp [hv], ?_⟩
          have hvb := hb v (by simp [litsOf, hv])
          rw [litSat_of_pos A v (by omega)]
          exact hvt
        · rw [List.any_eq_true] at hev
          obtain ⟨v, hv, hvt⟩ := hev
          refine ⟨v * -1, by simp [hv], ?_⟩
          have hvb := hb v (by simp [litsOf, hv])
          rw [litSat_neg_unit A v (by omega)]
          exact hvt
        · simp [evalDisj] at hev
      | cons c0 crest =>
        rw [aux_or_general p n (c0 :: crest) nb hu (by simp)]
        have hlen : (c0 :: crest).length = crest.length + 1 := by simp
        have hpremise : ∀ i, i < (c0 :: crest).length →
            (!(setAux A nb (c0 :: crest) ((nb + i : Nat) : Int)) ||
              evalF (setAux A nb (c0 :: crest)) ((c0 :: crest).getD i default)) =
              true := by
          intro i hi
          have hAt := setAux_at A nb (c0 :: crest) i hi
          cases hev2 : evalF A ((c0 :: crest).getD i default) with
          | false =>
            rw [hAt, hev2]
            simp
          | true =>
            have hmem : (c0 :: crest).getD i default ∈ (c0 :: crest) := by
              rw [getD_eq_elem _ i hi]
              exact List.getElem_mem hi
            have hagree : evalF (setAux A nb (c0 :: crest))
                ((c0 :: crest).getD i default) =
                evalF A ((c0 :: crest).getD i default) := by
              apply evalF_agree
              intro m hm
              have hmlit : m ∈ litsOfList (c0 :: crest) :=
                (litsOfList_mem (c0 :: crest) m).mpr ⟨_, hmem, hm⟩
              have hmb := hb m (by simp [litsOf, hmlit])
              exact setAux_below A nb (c0 :: crest) m hmb.2
            rw [hAt, hev2, hagree, hev2]
            simp
        have hconj := evalConj_rewriteChildren (setAux A nb (c0 :: crest))
          (c0 :: crest) nb hpremise
        have hbrw : ∀ m ∈ litsOfList (rewriteChildren (c0 :: crest) nb),
            (1 : Int) ≤ m ∧ m < (((nb + (c0 :: crest).length : Nat) : Nat) : Int) := by
          intro m hm
          rcases lits_rewriteChildren (c0 :: crest) nb m hm with h | h
          · have hmb := hb m (by simp [litsOf, h])
            constructor
            · exact hmb.1
            · have : (nb : Int) ≤ ((nb + (c0 :: crest).length : Nat) : Int) := by
                push_cast
                omega
              omega
          · have hc : (1 : Int) ≤ (nb : Int) := by exact_mod_cast hnb
            constructor
            · omega
            · have : ((nb + (c0 :: crest).length : Nat) : Int) =
                  (nb : Int) + (c0 :: crest).length := by push_cast; ring
              omega
        obtain ⟨B, hB1, hB2, hB3⟩ := aux_complete_list
          (rewriteChildren (c0 :: crest) nb) (nb + (c0 :: crest).length)
          (setAux A nb (c0 :: crest)) hbrw (by omega) hconj
        have hfinmono := auxList_mono (rewriteChildren (c0 :: crest) nb)
          (nb + (c0 :: crest).length)
        refine ⟨B, ?_, ?_, ?_⟩
        · intro v hv
          have hv2 : v < (((nb + (c0 :: crest).length : Nat) : Nat) : Int) := by
            push_cast
            push_cast at hv
            omega
          rw [hB1 v hv2]
          exact setAux_below A nb (c0 :: crest) v hv
        · intro v hv
          have hv2 : (((nb + (c0 :: crest).length : Nat) : Nat) : Int) ≤ v := by
            have : ((nb + (c0 :: crest).length : Nat) : Int) ≤
                (((aux_operatorToCnfList (rewriteChildren (c0 :: crest) nb)
                  (nb + (c0 :: crest).length)).2 : Nat) : Int) := by
              exact_mod_cast hfinmono
            exact le_trans this hv
          rw [hB2 v hv]
          apply setAux_above
          push_cast
          push_cast at hv2
          omega
        · simp only [cnfSat_append, Bool.and_eq_true]
          refine ⟨hB3, ?_⟩
          rw [cnfSat_true_iff]
          intro cl hcl
          simp only [List.mem_singleton] at hcl
          subst hcl
          rw [clauseSat_true_iff]
          simp only [evalF] at hev
          rw [Bool.or_eq_true, Bool.or_eq_true] at hev
          rcases hev with (hev | hev) | hev
          · rw [List.any_eq_true] at hev
            obtain ⟨v, hv, hvt⟩ := hev
            refine ⟨v, by simp [hv], ?_⟩
            have hvb := hb v (by simp [litsOf, hv])
            have hvlt : v < (((nb + (c0 :: crest).length : Nat) : Nat) : Int) := by
              push_cast
              omega
            rw [litSat_of_pos B v (by omega), hB1 v hvlt,
              setAux_below A nb (c0 :: crest) v hvb.2]
            exact hvt
          · rw [List.any_eq_true] at hev
            obtain ⟨v, hv, hvt⟩ := hev
            refine ⟨v * -1, by simp [hv], ?_⟩
            have hvb := hb v (by simp [litsOf, hv])
            have hvlt : v < (((nb + (c0 :: crest).length : Nat) : Nat) : Int) := by
              push_cast
              omega
            rw [litSat_neg_unit B v (by omega), hB1 v hvlt,
              setAux_below A nb (c0 :: crest) v hvb.2]
            exact hvt
          · rw [evalDisj_true_iff] at hev
            obtain ⟨c, hc, hct⟩ := hev
            obtain ⟨i, hi, hceq⟩ := List.getElem_of_mem hc
            refine ⟨Int.ofNat (nb + i), ?_, ?_⟩
            · simp only [List.mem_append, List.mem_map]
              left
              right
              refine ⟨nb + i, ?_, rfl⟩
              rw [List.mem_range'_1]
              omega
            · have hp0 : (0 : Int) < Int.ofNat (nb + i) := by
                rw [Int.ofNat_eq_natCast]
                have hpos0 : 0 < nb + i := by omega
                exact_mod_cast hpos0
              rw [litSat_of_pos B _ hp0]
              have hvlt : Int.ofNat (nb + i) <
                  (((nb + (c0 :: crest).length : Nat) : Nat) : Int) := by
                rw [Int.ofNat_eq_natCast]
                push_cast
                omega
              rw [Int.ofNat_eq_natCast]
              rw [hB1 _ (by rw [Int.ofNat_eq_natCast] at hvlt; exact hvlt)]
              rw [setAux_at A nb (c0 :: crest) i hi]
              rw [getD_eq_elem _ i hi, hceq]
              exact hct
termination_by f _ _ => mu f
decreasing_by all_goals
  first
  | exact muB_lt_mu_and _ _ _
  | exact muB_rewriteChildren_lt _ _ _ _
  | exact mu_unwrap_of _ _ _ _ (by assumption)
  | (simp only [muB]; omega)
/-- List version of aux_complete, composing the sibling extensions. -/
theorem aux_complete_list : ∀ (fs : List Formula) (nb : Nat) (A : Int → Bool),
    (∀ m ∈ litsOfList fs, (1 : Int) ≤ m ∧ m < (nb : Int)) → 1 ≤ nb →
    evalConj A fs = true →
    ∃ B : Int → Bool,
      (∀ v : Int, v < (nb : Int) → B v = A v) ∧
      (∀ v : Int, (((aux_operatorToCnfList fs nb).2 : Nat) : Int) ≤ v → B v = A v) ∧
      cnfSat B (aux_operatorToCnfList fs nb).1 = true
  | [], nb, A => by
    intro hb hnb hev
    rw [auxList_nil]
    exact ⟨A, fun v _ => rfl, fun v _ => rfl, rfl⟩
  | c :: cs, nb, A => by
    intro hb hnb hev
    rw [auxList_cons]
    simp only [evalConj] at hev
    rw [Bool.and_eq_true] at hev
    obtain ⟨he1, he2⟩ := hev
    obtain ⟨B1, h11, h12, h13⟩ := aux_complete c nb A
      (fun m hm => hb m (by simp [litsOfList, hm])) hnb he1
    have hmono1 := aux_mono c nb
    have hev2 : evalConj B1 cs = true := by
      rw [evalConj_agree cs B1 A ?agree]
      · exact he2
      case agree =>
        intro m hm
        have hmb := hb m (by simp [litsOfList, hm])
        exact h11 m hmb.2
    have hb2 : ∀ m ∈ litsOfList cs,
        (1 : Int) ≤ m ∧ m < (((aux_operatorToCnf c nb).2 : Nat) : Int) := by
      intro m hm
      have hmb := hb m (by simp [litsOfList, hm])
      have : (nb : Int) ≤ (((aux_operatorToCnf c nb).2 : Nat) : Int) := by
        exact_mod_cast hmono1
      exact ⟨hmb.1, by omega⟩
    obtain ⟨B2, h21, h22, h23⟩ := aux_complete_list cs (aux_operatorToCnf c nb).2 B1
      hb2 (le_trans hnb hmono1) hev2
    have hmono2 := auxList_mono cs (aux_operatorToCnf c nb).2
    refine ⟨B2, ?_, ?_, ?_⟩
    · intro v hv
      have hv2 : v < (((aux_operatorToCnf c nb).2 : Nat) : Int) := by
        have : (nb : Int) ≤ (((aux_operatorToCnf c nb).2 : Nat) : Int) := by
          exact_mod_cast hmono1
        omega
      rw [h21 v hv2]
      exact h11 v hv
    · intro v hv
      have hv2 : (((aux_operatorToCnf c nb).2 : Nat) : Int) ≤ v := by
        have : (((aux_operatorToCnf c nb).2 : Nat) : Int) ≤
            (((aux_operatorToCnfList cs (aux_operatorToCnf c nb).2).2 : Nat) : Int) := by
          exact_mod_cast hmono2
        exact le_trans this hv
      rw [h22 v hv]
      exact h12 v hv2
    · simp only [cnfSat_append, Bool.and_eq_true]
      constructor
      · have hext : cnfSat B2 (aux_operatorToCnf c nb).1 =
            cnfSat B1 (aux_operatorToCnf c nb).1 := by
          apply cnfSat_ext
          intro cl hcl l hl
          have hlits0 : ∀ m ∈ litsOf c, (0 : Int) ≤ m := by
            intro m hm
            have hmb := hb m (by simp [litsOfList, hm])
            omega
          rcases aux_range c nb hlits0 cl hcl l hl with h | h
          · have hmb := hb (litVar l) (by simp [litsOfList, h])
            have hlt : litVar l < (((aux_operatorToCnf c nb).2 : Nat) : Int) := by
              have : (nb : Int) ≤ (((aux_operatorToCnf c nb).2 : Nat) : Int) := by
                exact_mod_cast hmono1
              omega
            exact h21 (litVar l) hlt
          · exact h21 (litVar l) h.2
        rw [hext]
        exact h13
      · exact h23
termination_by fs _ _ => muB fs
decreasing_by all_goals
  first
  | exact muB_lt_mu_and _ _ _
  | exact muB_rewriteChildren_lt _ _ _ _
  | exact mu_unwrap_of _ _ _ _ (by assumption)
  | (simp only [muB]; omega)
end

/-- C1: for every Formula Node built from AND/OR nodes over positive literal
magnitudes and every complete truth assignment A to its named variables, A
satisfies the node iff A extends, by assigning only the auxiliary variables
introduced by operatorToCnf(n) for n above every magnitude, to an assignment
satisfying every compiled clause; in particular the compiled clause set is
satisfiable exactly when the node is. -/
theorem claim_equisatisfiability (f : Formula) (nbVars : Nat) (A : Int → Bool)
    (hlits : ∀ m ∈ litsOf f, (1 : Int) ≤ m ∧ m < (nbVars : Int))
    (hnb : 1 ≤ nbVars) :
    (evalF A f = true ↔
      ∃ B : Int → Bool, (∀ v : Int, v < (nbVars : Int) → B v = A v) ∧
        cnfSat B (operatorToCnf f nbVars).1 = true) ∧
    ((∃ A2 : Int → Bool, evalF A2 f = true) ↔
      ∃ B : Int → Bool, cnfSat B (operatorToCnf f nbVars).1 = true) := by
  constructor
  · constructor
    · intro hev
      obtain ⟨B, h1, h2, h3⟩ := aux_complete f nbVars A hlits hnb hev
      exact ⟨B, h1, h3⟩
    · rintro ⟨B, hagree, hsat⟩
      have hBf : evalF B f = true :=
        aux_sound f nbVars B (fun m hm => (hlits m hm).1) hnb hsat
      calc evalF A f = evalF B f :=
            evalF_agree f A B (fun m hm => (hagree m (hlits m hm).2).symm)
        _ = true := hBf
  · constructor
    · rintro ⟨A2, hev⟩
      obtain ⟨B, h1, h2, h3⟩ := aux_complete f nbVars A2 hlits hnb hev
      exact ⟨B, h3⟩
    · rintro ⟨B, hsat⟩
      exact ⟨B, aux_sound f nbVars B (fun m hm => (hlits m hm).1) hnb hsat⟩

theorem claim_equisatisfiability_witness :
    (∀ m ∈ litsOf (Formula.Or [] []
        [Formula.And [1] [] [], Formula.And [2] [] []]),
      (1 : Int) ≤ m ∧ m < ((3 : Nat) : Int)) ∧
    1 ≤ 3 ∧
    ((evalF (fun v => decide (v = 1))
        (Formula.Or [] [] [Formula.And [1] [] [], Formula.And [2] [] []]) = true ↔
      ∃ B : Int → Bool, (∀ v : Int, v < ((3 : Nat) : Int) →
          B v = (fun v => decide (v = 1)) v) ∧
        cnfSat B (operatorToCnf
          (Formula.Or [] [] [Formula.And [1] [] [], Formula.And [2] [] []]) 3).1 =
            true) ∧
    ((∃ A2 : Int → Bool, evalF A2
        (Formula.Or [] [] [Formula.And [1] [] [], Formula.And [2] [] []]) = true) ↔
      ∃ B : Int → Bool, cnfSat B (operatorToCnf
        (Formula.Or [] [] [Formula.And [1] [] [], Formula.And [2] [] []]) 3).1 =
          true)) :=
  ⟨by
    intro m hm
    simp only [litsOf, litsOfList, List.mem_append, List.not_mem_nil,
      List.mem_singleton, List.nil_append, List.append_nil] at hm
    rcases hm with hm | hm
    all_goals (first | (rcases hm with hm | hm) | skip)
    all_goals (try subst hm)
    all_goals (first | omega | (simp at hm))
   , by omega,
   claim_equisatisfiability
     (Formula.Or [] [] [Formula.And [1] [] [], Formula.And [2] [] []]) 3
     (fun v => decide (v = 1))
     (by
       intro m hm
       simp only [litsOf, litsOfList, List.mem_append, List.not_mem_nil,
         List.mem_singleton, List.nil_append, List.append_nil] at hm
       rcases hm with hm | hm
       all_goals (first | (rcases hm with hm | hm) | skip)
       all_goals (try subst hm)
       all_goals (first | omega | (simp at hm)))
     (by omega)⟩

/-- C2 counterexample: the node OR([], [], [AND([1],[],[]), AND([2],[],[])])
has all magnitudes in [1, 3], yet compiling with counter 3 puts magnitude 3 -
inside the closed interval [1, 3] - into a clause although 3 never occurs in
the node's literal sets: the first auxiliary variable is allocated at n, not
above it, so the claim's closed interval [1, n] is off by one. -/
theorem claim_freshness_counterexample :
    (operatorToCnf (Formula.Or [] []
      [Formula.And [1] [] [], Formula.And [2] [] []]) 3).1 =
        [[1, -3], [2, -4], [3, 4]] ∧
    (-3 : Int) ∈ [(1 : Int), -3] ∧
    (1 : Int) ≤ litVar (-3) ∧ litVar (-3) ≤ ((3 : Nat) : Int) ∧
    litVar (-3) ∉ litsOf (Formula.Or [] []
      [Formula.And [1] [] [], Formula.And [2] [] []]) := by
  refine ⟨?_, by simp, by simp [litVar], by simp [litVar], ?_⟩
  · simp [operatorToCnf, aux_operatorToCnf, aux_operatorToCnfList, unwrapTarget,
      rewriteChildren, distributeImplication, List.range']
  · simp [litVar, litsOf, litsOfList]

/-- C2 amended: when every literal magnitude of the node lies in [1, n) - the
counter is seeded strictly above every magnitude - then no clause of the
output contains a magnitude below n that is absent from the node's literal
sets, and every newly introduced magnitude lies in [n, n + k), where
n + k is the final counter value. -/
theorem claim_freshness_amended (f : Formula) (nbVars : Nat)
    (hlits : ∀ m ∈ litsOf f, (1 : Int) ≤ m ∧ m < (nbVars : Int)) :
    nbVars ≤ (operatorToCnf f nbVars).2 ∧
    (∀ cl ∈ (operatorToCnf f nbVars).1, ∀ l ∈ cl,
      (litVar l < (nbVars : Int) → litVar l ∈ litsOf f) ∧
      (litVar l ∉ litsOf f →
        (nbVars : Int) ≤ litVar l ∧
          litVar l < (((operatorToCnf f nbVars).2 : Nat) : Int))) := by
  constructor
  · exact aux_mono f nbVars
  · intro cl hcl l hl
    have hr := aux_range f nbVars (fun m hm => by have := hlits m hm; omega) cl hcl l hl
    constructor
    · intro hlt
      rcases hr with h | h
      · exact h
      · omega
    · intro hnot
      rcases hr with h | h
      · exact absurd h hnot
      · exact h

theorem claim_freshness_amended_witness :
    (∀ m ∈ litsOf (Formula.Or [] []
        [Formula.And [1] [] [], Formula.And [2] [] []]),
      (1 : Int) ≤ m ∧ m < ((4 : Nat) : Int)) ∧
    (4 ≤ (operatorToCnf (Formula.Or [] []
        [Formula.And [1] [] [], Formula.And [2] [] []]) 4).2 ∧
      (∀ cl ∈ (operatorToCnf (Formula.Or [] []
          [Formula.And [1] [] [], Formula.And [2] [] []]) 4).1, ∀ l ∈ cl,
        (litVar l < ((4 : Nat) : Int) → litVar l ∈ litsOf (Formula.Or [] []
          [Formula.And [1] [] [], Formula.And [2] [] []])) ∧
        (litVar l ∉ litsOf (Formula.Or [] []
            [Formula.And [1] [] [], Formula.And [2] [] []]) →
          ((4 : Nat) : Int) ≤ litVar l ∧
            litVar l < (((operatorToCnf (Formula.Or [] []
              [Formula.And [1] [] [], Formula.And [2] [] []]) 4).2 : Nat) : Int)))) :=
  ⟨by
    intro m hm
    simp only [litsOf, litsOfList, List.mem_append, List.not_mem_nil,
      List.mem_singleton, List.nil_append, List.append_nil] at hm
    rcases hm with hm | hm
    all_goals (first | (rcases hm with hm | hm) | skip)
    all_goals (try subst hm)
    all_goals (first | omega | (simp at hm))
   ,
   claim_freshness_amended
     (Formula.Or [] [] [Formula.And [1] [] [], Formula.And [2] [] []]) 4
     (by
       intro m hm
       simp only [litsOf, litsOfList, List.mem_append, List.not_mem_nil,
         List.mem_singleton, List.nil_append, List.append_nil] at hm
       rcases hm with hm | hm
       all_goals (first | (rcases hm with hm | hm) | skip)
       all_goals (try subst hm)
       all_goals (first | omega | (simp at hm)))⟩

/-- C3: once compilation begins the shared counter is monotonically
non-decreasing, and compiling formula A and then formula B with the threaded
counter never lets B reuse a magnitude of A's output: every magnitude in A's
output is strictly below the counter value B starts from, and every magnitude
B introduces is at least that value. -/
theorem claim_monotonic_counter (fA fB : Formula) (nbVars : Nat)
    (hA : ∀ m ∈ litsOf fA, (0 : Int) ≤ m ∧ m < (nbVars : Int))
    (hB : ∀ m ∈ litsOf fB, (0 : Int) ≤ m) :
    nbVars ≤ (operatorToCnf fA nbVars).2 ∧
    (operatorToCnf fA nbVars).2 ≤
      (operatorToCnf fB (operatorToCnf fA nbVars).2).2 ∧
    (∀ cl ∈ (operatorToCnf fA nbVars).1, ∀ l ∈ cl,
      litVar l < (((operatorToCnf fA nbVars).2 : Nat) : Int)) ∧
    (∀ cl ∈ (operatorToCnf fB (operatorToCnf fA nbVars).2).1, ∀ l ∈ cl,
      litVar l ∈ litsOf fB ∨
        ((((operatorToCnf fA nbVars).2 : Nat) : Int) ≤ litVar l ∧
          litVar l < (((operatorToCnf fB
            (operatorToCnf fA nbVars).2).2 : Nat) : Int))) := by
  have hm1 := aux_mono fA nbVars
  refine ⟨hm1, aux_mono fB (operatorToCnf fA nbVars).2, ?_, ?_⟩
  · intro cl hcl l hl
    have hr := aux_range fA nbVars (fun m hm => (hA m hm).1) cl hcl l hl
    rcases hr with h | h
    · have hlt := (hA (litVar l) h).2
      have hcast : (nbVars : Int) ≤ (((operatorToCnf fA nbVars).2 : Nat) : Int) := by
        exact_mod_cast hm1
      omega
    · exact h.2
  · intro cl hcl l hl
    exact aux_range fB (operatorToCnf fA nbVars).2 hB cl hcl l hl

theorem claim_monotonic_counter_witness :
    (∀ m ∈ litsOf (Formula.Or [] [] [Formula.And [1] [] [],
        Formula.And [2] [] []]), (0 : Int) ≤ m ∧ m < ((3 : Nat) : Int)) ∧
    (∀ m ∈ litsOf (Formula.Or [1] [2] []), (0 : Int) ≤ m) ∧
    (3 ≤ (operatorToCnf (Formula.Or [] [] [Formula.And [1] [] [],
        Formula.And [2] [] []]) 3).2 ∧
      (operatorToCnf (Formula.Or [] [] [Formula.And [1] [] [],
        Formula.And [2] [] []]) 3).2 ≤
        (operatorToCnf (Formula.Or [1] [2] [])
          (operatorToCnf (Formula.Or [] [] [Formula.And [1] [] [],
            Formula.And [2] [] []]) 3).2).2 ∧
      (∀ cl ∈ (operatorToCnf (Formula.Or [] [] [Formula.And [1] [] [],
          Formula.And [2] [] []]) 3).1, ∀ l ∈ cl,
        litVar l < (((operatorToCnf (Formula.Or [] [] [Formula.And [1] [] [],
          Formula.And [2] [] []]) 3).2 : Nat) : Int)) ∧
      (∀ cl ∈ (operatorToCnf (Formula.Or [1] [2] [])
          (operatorToCnf (Formula.Or [] [] [Formula.And [1] [] [],
            Formula.And [2] [] []]) 3).2).1, ∀ l ∈ cl,
        litVar l ∈ litsOf (Formula.Or [1] [2] []) ∨
          ((((operatorToCnf (Formula.Or [] [] [Formula.And [1] [] [],
              Formula.And [2] [] []]) 3).2 : Nat) : Int) ≤ litVar l ∧
            litVar l < (((operatorToCnf (Formula.Or [1] [2] [])
              (operatorToCnf (Formula.Or [] [] [Formula.And [1] [] [],
                Formula.And [2] [] []]) 3).2).2 : Nat) : Int)))) :=
  ⟨by
    intro m hm
    simp only [litsOf, litsOfList, List.mem_append, List.not_mem_nil,
      List.mem_singleton, List.nil_append, List.append_nil] at hm
    rcases hm with hm | hm
    all_goals (first | (rcases hm with hm | hm) | skip)
    all_goals (try subst hm)
    all_goals (first | omega | (simp at hm))
   , by
    intro m hm
    simp only [litsOf, litsOfList, List.mem_append, List.not_mem_nil,
      List.mem_singleton, List.nil_append, List.append_nil] at hm
    rcases hm with hm | hm
    all_goals (try subst hm)
    all_goals (first | omega | (simp at hm))
   ,
   claim_monotonic_counter
     (Formula.Or [] [] [Formula.And [1] [] [], Formula.And [2] [] []])
     (Formula.Or [1] [2] []) 3
     (by
       intro m hm
       simp only [litsOf, litsOfList, List.mem_append, List.not_mem_nil,
         List.mem_singleton, List.nil_append, List.append_nil] at hm
       rcases hm with hm | hm
       all_goals (first | (rcases hm with hm | hm) | skip)
       all_goals (try subst hm)
       all_goals (first | omega | (simp at hm)))
     (by
       intro m hm
       simp only [litsOf, litsOfList, List.mem_append, List.not_mem_nil,
         List.mem_singleton, List.nil_append, List.append_nil] at hm
       rcases hm with hm | hm
       all_goals (try subst hm)
       all_goals (first | omega | (simp at hm)))⟩

/-- C4 counterexample: the compiler performs no validation at all - compiling
the node AND([0],[],[]), whose literal magnitude 0 is not positive, does not
abort: it silently returns the clause list [[0]] containing the invalid
literal, with the counter untouched.  No MalformedFormula error exists
anywhere in the code. -/
theorem claim_malformed_counterexample :
    operatorToCnf (Formula.And [0] [] []) 5 = ([[0]], 5) := by
  simp [operatorToCnf, aux_operatorToCnf, aux_operatorToCnfList]

/-- C4 amended: compilation never aborts on a literal magnitude below 1; for
every non-positive magnitude v the node AND([v],[],[]) compiles without any
error to the clause list [[v]] that simply propagates the invalid literal. -/
theorem claim_malformed_amended (v : Int) (nbVars : Nat) (hv : v ≤ 0) :
    operatorToCnf (Formula.And [v] [] []) nbVars = ([[v]], nbVars) := by
  simp [operatorToCnf, aux_operatorToCnf, aux_operatorToCnfList]

theorem claim_malformed_amended_witness :
    (-7 : Int) ≤ 0 ∧
      operatorToCnf (Formula.And [-7] [] []) 5 = ([[-7]], 5) :=
  ⟨by omega, claim_malformed_amended (-7) 5 (by omega)⟩

/-- C5: compiling OR([], [], [AND([1],[],[]), AND([2],[],[])]) with the
counter at 10 produces exactly the clauses (x1 or not a), (x2 or not b),
(a or b) with fresh auxiliaries a = 10 and b = 11 and final counter 12, and
that clause set is satisfiable exactly when x1 or x2 is satisfiable. -/
theorem claim_or_of_two_ands :
    operatorToCnf (Formula.Or [] []
      [Formula.And [1] [] [], Formula.And [2] [] []]) 10 =
        ([[1, -10], [2, -11], [10, 11]], 12) ∧
    (∀ A : Int → Bool,
      cnfSat A [[1, -10], [2, -11], [10, 11]] =
        ((A 1 || !(A 10)) && (A 2 || !(A 11)) && (A 10 || A 11))) ∧
    ((∃ A : Int → Bool, cnfSat A (operatorToCnf (Formula.Or [] []
        [Formula.And [1] [] [], Formula.And [2] [] []]) 10).1 = true) ↔
      ∃ A : Int → Bool, (A 1 || A 2) = true) := by
  refine ⟨?_, ?_, ?_⟩
  · simp [operatorToCnf, aux_operatorToCnf, aux_operatorToCnfList, unwrapTarget,
      rewriteChildren, distributeImplication, List.range']
  · intro A
    simp [cnfSat, clauseSat, litSat, Bool.and_assoc]
  · constructor
    · intro h
      exact ⟨fun v => true, rfl⟩
    · intro h
      refine ⟨fun v => true, ?_⟩
      have he : operatorToCnf (Formula.Or [] []
          [Formula.And [1] [] [], Formula.And [2] [] []]) 10 =
            ([[1, -10], [2, -11], [10, 11]], 12) := by
        simp [operatorToCnf, aux_operatorToCnf, aux_operatorToCnfList, unwrapTarget,
          rewriteChildren, distributeImplication, List.range']
      rw [he]
      rfl

/-- C6: compiling the zero-child, zero-literal node OR([], [], []) yields
exactly one empty clause, consumes no fresh variables (the counter is
returned unchanged) and raises no error - the output signals an
unconditionally false constraint. -/
theorem claim_empty_or (nbVars : Nat) :
    operatorToCnf (Formula.Or [] [] []) nbVars = ([[]], nbVars) := by
  rw [operatorToCnf, aux_or_nil]
  rfl

/-- C10: for all literal lists P and N and every child list G, compiling
Or(P, N, [Or([], [], G)]) gives exactly the same clause list and final counter
as compiling Or(P, N, G): the single-child unwrap fires whenever the lone
child is a literal-free OR, even when that inner OR has children. -/
theorem claim_single_child_unwrap (P N : List Int) (G : List Formula)
    (nbVars : Nat) :
    operatorToCnf (Formula.Or P N [Formula.Or [] [] G]) nbVars =
      operatorToCnf (Formula.Or P N G) nbVars := by
  rw [operatorToCnf, operatorToCnf]
  exact aux_or_unwrap P N [Formula.Or [] [] G] G nbVars rfl

/-- Operator tag of a node, modelling the string comparison qbf.type ==
self.type of formulas.py with a boolean (true = AND). -/
def isAnd : Formula → Bool
  | .And _ _ _ => true
  | .Or _ _ _ => false

/-- Positive literal list of a node. -/
def positivesOf : Formula → List Int
  | .And p _ _ => p
  | .Or p _ _ => p

/-- Negative literal list of a node. -/
def negativesOf : Formula → List Int
  | .And _ n _ => n
  | .Or _ n _ => n

/-- Child list of a node. -/
def childrenOf : Formula → List Formula
  | .And _ _ cs => cs
  | .Or _ _ cs => cs

/-- The flattening loop of Operator.simplify (lines 74-81): children carrying
the parent's operator donate their literals and children to the parent, other
children are kept, in iteration order. -/
def flattenSame (t : Bool) : List Formula → List Int × List Int × List Formula
  | [] => ([], [], [])
  | c :: cs =>
    let r := flattenSame t cs
    if isAnd c == t then
      (positivesOf c ++ r.1, negativesOf c ++ r.2.1, childrenOf c ++ r.2.2)
    else (r.1, r.2.1, c :: r.2.2)

theorem lsize_append (l1 l2 : List Formula) :
    lsize (l1 ++ l2) = lsize l1 + lsize l2 := by
  induction l1 with
  | nil => simp [lsize]
  | cons c l1 ih => simp [lsize, ih]; omega

theorem fsize_children (c : Formula) : fsize c = 1 + lsize (childrenOf c) := by
  cases c <;> simp [fsize, childrenOf]

theorem lsize_flattenSame (t : Bool) (cs : List Formula) :
    lsize (flattenSame t cs).2.2 ≤ lsize cs := by
  induction cs with
  | nil => simp [flattenSame]
  | cons c cs ih =>
    simp only [flattenSame]
    by_cases hc : isAnd c == t
    · rw [if_pos hc]
      simp only [lsize_append, lsize]
      have h := fsize_children c
      omega
    · rw [if_neg hc]
      simp only [lsize]
      omega

mutual
/-- Translated from Operator.simplify (lines 62-91): a node with no children
is returned as is; a node with exactly one child and no literals collapses to
the simplified child; otherwise same-operator children are flattened into the
parent and the remaining children are simplified. -/
def simplify : Formula → Formula
  | .And p n cs =>
    match cs with
    | [] => .And p n []
    | [c] =>
      if p = [] ∧ n = [] then simplify c
      else
        .And (p ++ (flattenSame true [c]).1) (n ++ (flattenSame true [c]).2.1)
          (simplifyList (flattenSame true [c]).2.2)
    | c1 :: c2 :: rest =>
      .And (p ++ (flattenSame true (c1 :: c2 :: rest)).1)
        (n ++ (flattenSame true (c1 :: c2 :: rest)).2.1)
        (simplifyList (flattenSame true (c1 :: c2 :: rest)).2.2)
  | .Or p n cs =>
    match cs with
    | [] => .Or p n []
    | [c] =>
      if p = [] ∧ n = [] then simplify c
      else
        .Or (p ++ (flattenSame false [c]).1) (n ++ (flattenSame false [c]).2.1)
          (simplifyList (flattenSame false [c]).2.2)
    | c1 :: c2 :: rest =>
      .Or (p ++ (flattenSame false (c1 :: c2 :: rest)).1)
        (n ++ (flattenSame false (c1 :: c2 :: rest)).2.1)
        (simplifyList (flattenSame false (c1 :: c2 :: rest)).2.2)
termination_by f => fsize f
decreasing_by all_goals
  first
  | (simp only [fsize, lsize]; omega)
  | (simp only [fsize]
     refine Nat.lt_of_le_of_lt (lsize_flattenSame _ _) ?_
     omega)
/-- The per-element simplification of the flattened child list. -/
def simplifyList : List Formula → List Formula
  | [] => []
  | c :: cs => simplify c :: simplifyList cs
termination_by l => lsize l
decreasing_by all_goals (simp only [fsize, lsize]; omega)
end

/-- Flattening same-operator children of an AND preserves its truth value. -/
theorem flatten_and_sem (A : Int → Bool) : ∀ cs : List Formula,
    evalConj A cs = ((flattenSame true cs).1.all (fun v => A v) &&
      ((flattenSame true cs).2.1.all (fun v => !(A v)) &&
        evalConj A (flattenSame true cs).2.2)) := by
  intro cs
  induction cs with
  | nil => simp [flattenSame, evalConj]
  | cons c cs ih =>
    simp only [flattenSame, evalConj]
    cases c with
    | And pc nc gs =>
      rw [if_pos (by simp [isAnd])]
      simp only [positivesOf, negativesOf, childrenOf, List.all_append,
        evalConj_append, evalF]
      rw [ih, Bool.eq_iff_iff]
      simp only [Bool.and_eq_true]
      tauto
    | Or pc nc gs =>
      rw [if_neg (by simp [isAnd])]
      simp only [evalConj]
      rw [ih, Bool.eq_iff_iff]
      simp only [Bool.and_eq_true]
      tauto

/-- Flattening same-operator children of an OR preserves its truth value. -/
theorem flatten_or_sem (A : Int → Bool) : ∀ cs : List Formula,
    evalDisj A cs = ((flattenSame false cs).1.any (fun v => A v) ||
      ((flattenSame false cs).2.1.any (fun v => !(A v)) ||
        evalDisj A (flattenSame false cs).2.2)) := by
  intro cs
  induction cs with
  | nil => simp [flattenSame, evalDisj]
  | cons c cs ih =>
    simp only [flattenSame, evalDisj]
    cases c with
    | And pc nc gs =>
      rw [if_neg (by simp [isAnd])]
      simp only [evalDisj]
      rw [ih, Bool.eq_iff_iff]
      simp only [Bool.or_eq_true]
      tauto
    | Or pc nc gs =>
      rw [if_pos (by simp [isAnd])]
      simp only [positivesOf, negativesOf, childrenOf, List.any_append,
        evalDisj_append, evalF]
      rw [ih, Bool.eq_iff_iff]
      simp only [Bool.or_eq_true]
      tauto

mutual
/-- simplify preserves the truth value of the node under every assignment. -/
theorem simplify_sound : ∀ (f : Formula) (A : Int → Bool),
    evalF A (simplify f) = evalF A f
  | .And p n cs, A => by
    match cs with
    | [] => simp only [simplify]
    | [c] =>
      by_cases hpn : p = [] ∧ n = []
      · obtain ⟨hp, hn⟩ := hpn
        subst hp
        subst hn
        simp only [simplify]
        simp only [and_self, if_true]
        rw [simplify_sound c A]
        simp [evalF, evalConj]
      · simp only [simplify, if_neg hpn]
        simp only [evalF]
        rw [simplifyList_conj (flattenSame true [c]).2.2 A,
          flatten_and_sem A [c], List.all_append, List.all_append,
          Bool.eq_iff_iff]
        simp only [Bool.and_eq_true]
        tauto
    | c1 :: c2 :: rest =>
      simp only [simplify, evalF]
      rw [simplifyList_conj (flattenSame true (c1 :: c2 :: rest)).2.2 A,
        flatten_and_sem A (c1 :: c2 :: rest), List.all_append, List.all_append,
        Bool.eq_iff_iff]
      simp only [Bool.and_eq_true]
      tauto
  | .Or p n cs, A => by
    match cs with
    | [] => simp only [simplify]
    | [c] =>
      by_cases hpn : p = [] ∧ n = []
      · obtain ⟨hp, hn⟩ := hpn
        subst hp
        subst hn
        simp only [simplify]
        simp only [and_self, if_true]
        rw [simplify_sound c A]
        simp [evalF, evalDisj]
      · simp only [simplify, if_neg hpn]
        simp only [evalF]
        rw [simplifyList_disj (flattenSame false [c]).2.2 A,
          flatten_or_sem A [c], List.any_append, List.any_append,
          Bool.eq_iff_iff]
        simp only [Bool.or_eq_true]
        tauto
    | c1 :: c2 :: rest =>
      simp only [simplify, evalF]
      rw [simplifyList_disj (flattenSame false (c1 :: c2 :: rest)).2.2 A,
        flatten_or_sem A (c1 :: c2 :: rest), List.any_append, List.any_append,
        Bool.eq_iff_iff]
      simp only [Bool.or_eq_true]
      tauto
termination_by f _ => fsize f
decreasing_by all_goals
  first
  | (simp only [fsize, lsize]; omega)
  | (simp only [fsize]
     refine Nat.lt_of_le_of_lt (lsize_flattenSame _ _) ?_
     omega)
/-- simplifyList preserves a conjunction's truth value. -/
theorem simplifyList_conj : ∀ (l : List Formula) (A : Int → Bool),
    evalConj A (simplifyList l) = evalConj A l
  | [], A => by simp only [simplifyList]
  | c :: cs, A => by
    simp only [simplifyList, evalConj]
    rw [simplify_sound c A, simplifyList_conj cs A]
termination_by l _ => lsize l
decreasing_by all_goals (simp only [fsize, lsize]; omega)
/-- simplifyList preserves a disjunction's truth value. -/
theorem simplifyList_disj : ∀ (l : List Formula) (A : Int → Bool),
    evalDisj A (simplifyList l) = evalDisj A l
  | [], A => by simp only [simplifyList]
  | c :: cs, A => by
    simp only [simplifyList, evalDisj]
    rw [simplify_sound c A, simplifyList_disj cs A]
termination_by l _ => lsize l
decreasing_by all_goals (simp only [fsize, lsize]; omega)
end

/-- C7: for every Formula Node F, F.simplify() - flattening same-operator
children into the parent and collapsing a literal-free singleton node into
its child - returns a node with the same truth value as F under every
assignment to the named variables. -/
theorem claim_simplify_equivalence (f : Formula) (A : Int → Bool) :
    evalF A (simplify f) = evalF A f :=
  simplify_sound f A

/-- Fixed weight placed on every soft clause (conformanceArtefacts.py, line
47). -/
def WEIGHT_ON_CLAUSES_TO_REDUCE : Int := -10

/-- Artefact tag for multi-alignment. -/
def MULTI_ALIGNMENT : String := "multi"

/-- Artefact tag for anti-alignment. -/
def ANTI_ALIGNMENT : String := "anti"

/-- Artefact tag for exact alignment. -/
def EXACT_ALIGNMENT : String := "exact"

/-- Distance tag for the Hamming distance. -/
def HAMMING_DISTANCE : String := "hamming"

/-- Distance tag for the edit distance. -/
def EDIT_DISTANCE : String := "edit"

/-- Name of the distance variable family (conformanceArtefacts.py, line 44). -/
def BOOLEAN_VAR_EDIT_DISTANCE : String := "djiid"

/-- Translated from the soft-clause loops of ConformanceArtefacts.__createWncf
(lines 201-218): for every trace index j and, for edit distance, every d in
1..max_d (for Hamming distance, every position i in 1..size_of_run), append
one unit clause weighted with the fixed negative constant; the literal's sign
factor is +1 only for anti-alignment.  The registry lookup getVarNumber lives
in the external variables generator module and is passed as a parameter. -/
def createWncfSoft (getVarNumber : String → List Nat → Int)
    (distance_type artefactForMinimization : String)
    (numTraces size_of_run max_d : Nat) : List (List Int × Int) :=
  let weightsOnVariables : Int :=
    if artefactForMinimization ≠ ANTI_ALIGNMENT then -1 else 1
  if distance_type = EDIT_DISTANCE then
    (List.range numTraces).flatMap (fun j =>
      (List.range' 1 max_d).map (fun d =>
        ([weightsOnVariables * getVarNumber BOOLEAN_VAR_EDIT_DISTANCE
            [j, size_of_run, size_of_run, d]], WEIGHT_ON_CLAUSES_TO_REDUCE)))
  else if distance_type = HAMMING_DISTANCE then
    (List.range numTraces).flatMap (fun j =>
      (List.range' 1 size_of_run).map (fun i =>
        ([weightsOnVariables * getVarNumber BOOLEAN_VAR_EDIT_DISTANCE [j, i]],
          WEIGHT_ON_CLAUSES_TO_REDUCE)))
  else []

/-- Translated from ConformanceArtefacts.__createWncf (lines 187-220): the
hard clauses are the CNF compilation of the one AND node joining the
initialisation and distance formulas, seeded with the registry's counter;
the soft clauses are those of createWncfSoft. -/
def createWncf (getVarNumber : String → List Nat → Int) (iterator : Nat)
    (initialisationFormulas distanceFormula : List Formula)
    (distance_type artefactForMinimization : String)
    (numTraces size_of_run max_d : Nat) :
    List (List Int) × List (List Int × Int) :=
  ((operatorToCnf
      (Formula.And [] [] (initialisationFormulas ++ distanceFormula))
      iterator).1,
   createWncfSoft getVarNumber distance_type artefactForMinimization numTraces
     size_of_run max_d)

theorem flatMap_chunk_length {α : Type} (g : Nat → Nat → α) (nT m : Nat) :
    ((List.range nT).flatMap (fun j => (List.range' 1 m).map (g j))).length =
      nT * m := by
  induction nT with
  | zero => simp
  | succ k ih =>
    rw [List.range_succ, List.flatMap_append, List.length_append, ih]
    simp [Nat.succ_mul]

theorem flatMap_chunk_get {α : Type} (g : Nat → Nat → α) (nT m j i : Nat)
    (hj : j < nT) (hi : i < m) :
    ((List.range nT).flatMap (fun j =>
      (List.range' 1 m).map (g j)))[j * m + i]? = some (g j (1 + i)) := by
  induction nT with
  | zero => omega
  | succ k ih =>
    rw [List.range_succ, List.flatMap_append]
    have hlen : ((List.range k).flatMap (fun j =>
        (List.range' 1 m).map (g j))).length = k * m := flatMap_chunk_length g k m
    rw [List.getElem?_append, hlen]
    by_cases hjk : j < k
    · have hidx : j * m + i < k * m := by
        calc j * m + i < j * m + m := by omega
          _ = (j + 1) * m := by ring
          _ ≤ k * m := Nat.mul_le_mul_right m (by omega)
      rw [if_pos hidx]
      exact ih hjk
    · have hjeq : j = k := by omega
      subst hjeq
      rw [if_neg (by omega)]
      have hidx2 : j * m + i - j * m = i := by omega
      rw [hidx2]
      simp only [List.flatMap_cons, List.flatMap_nil, List.append_nil]
      rw [List.getElem?_map, List.getElem?_range' 1 1 hi]
      simp [Nat.add_comm]

/-- C8: in the weighted clause assembler, for every trace index j and every
relevant distance-variable index (d in [1, max_d] for edit distance, i in
[1, size_of_run] for Hamming distance), exactly one unit soft clause is
appended - the edit soft list has length numTraces * max_d and the Hamming
soft list has length numTraces * size_of_run, with the entry of each pair
located at position j * width + (index - 1) - whose weight is the fixed
negative constant -10 and whose literal sign factor is +1 when the artefact
is anti-alignment and -1 for multi-alignment and exact alignment. -/
theorem claim_soft_clauses (getVarNumber : String → List Nat → Int)
    (iterator : Nat) (initialisationFormulas distanceFormula : List Formula)
    (artefact : String) (numTraces size_of_run max_d : Nat)
    (j d i : Nat) (hj : j < numTraces) (hd1 : 1 ≤ d) (hd2 : d ≤ max_d)
    (hi1 : 1 ≤ i) (hi2 : i ≤ size_of_run) :
    (WEIGHT_ON_CLAUSES_TO_REDUCE < 0) ∧
    ((artefact = MULTI_ALIGNMENT ∨ artefact = EXACT_ALIGNMENT) →
      ((createWncf getVarNumber iterator initialisationFormulas distanceFormula
          EDIT_DISTANCE artefact numTraces size_of_run max_d).2.length =
            numTraces * max_d ∧
       (createWncf getVarNumber iterator initialisationFormulas distanceFormula
          HAMMING_DISTANCE artefact numTraces size_of_run max_d).2.length =
            numTraces * size_of_run ∧
       (createWncf getVarNumber iterator initialisationFormulas distanceFormula
          EDIT_DISTANCE artefact numTraces size_of_run max_d).2[j * max_d + (d - 1)]? =
            some ([-1 * getVarNumber BOOLEAN_VAR_EDIT_DISTANCE
              [j, size_of_run, size_of_run, d]], WEIGHT_ON_CLAUSES_TO_REDUCE) ∧
       (createWncf getVarNumber iterator initialisationFormulas distanceFormula
          HAMMING_DISTANCE artefact numTraces size_of_run max_d).2[j * size_of_run + (i - 1)]? =
            some ([-1 * getVarNumber BOOLEAN_VAR_EDIT_DISTANCE [j, i]],
              WEIGHT_ON_CLAUSES_TO_REDUCE))) ∧
    (artefact = ANTI_ALIGNMENT →
      ((createWncf getVarNumber iterator initialisationFormulas distanceFormula
          EDIT_DISTANCE artefact numTraces size_of_run max_d).2.length =
            numTraces * max_d ∧
       (createWncf getVarNumber iterator initialisationFormulas distanceFormula
          HAMMING_DISTANCE artefact numTraces size_of_run max_d).2.length =
            numTraces * size_of_run ∧
       (createWncf getVarNumber iterator initialisationFormulas distanceFormula
          EDIT_DISTANCE artefact numTraces size_of_run max_d).2[j * max_d + (d - 1)]? =
            some ([1 * getVarNumber BOOLEAN_VAR_EDIT_DISTANCE
              [j, size_of_run, size_of_run, d]], WEIGHT_ON_CLAUSES_TO_REDUCE) ∧
       (createWncf getVarNumber iterator initialisationFormulas distanceFormula
          HAMMING_DISTANCE artefact numTraces size_of_run max_d).2[j * size_of_run + (i - 1)]? =
            some ([1 * getVarNumber BOOLEAN_VAR_EDIT_DISTANCE [j, i]],
              WEIGHT_ON_CLAUSES_TO_REDUCE))) := by
  have hd : d - 1 < max_d := by omega
  have hii : i - 1 < size_of_run := by omega
  have hde : 1 + (d - 1) = d := by omega
  have hie : 1 + (i - 1) = i := by omega
  refine ⟨by norm_num [WEIGHT_ON_CLAUSES_TO_REDUCE], ?_, ?_⟩
  all_goals intro hart
  · have hne : artefact ≠ ANTI_ALIGNMENT := by
      rcases hart with h | h <;>
        (subst h; simp [MULTI_ALIGNMENT, EXACT_ALIGNMENT, ANTI_ALIGNMENT])
    have hsign : (if artefact ≠ ANTI_ALIGNMENT then (-1 : Int) else 1) = -1 :=
      if_pos hne
    have hedit : (EDIT_DISTANCE = EDIT_DISTANCE) = True := by simp
    have hhe : (HAMMING_DISTANCE = EDIT_DISTANCE) = False := by
      simp [HAMMING_DISTANCE, EDIT_DISTANCE]
    have hhh : (HAMMING_DISTANCE = HAMMING_DISTANCE) = True := by simp
    refine ⟨?_, ?_, ?_, ?_⟩
    · simp only [createWncf, createWncfSoft, hsign, hedit, if_true]
      exact flatMap_chunk_length _ numTraces max_d
    · simp only [createWncf, createWncfSoft, hsign, hhe, if_false, hhh, if_true]
      exact flatMap_chunk_length _ numTraces size_of_run
    · simp only [createWncf, createWncfSoft, hsign, hedit, if_true]
      have hstep := flatMap_chunk_get (fun j d =>
        (([(-1 : Int) * getVarNumber BOOLEAN_VAR_EDIT_DISTANCE
          [j, size_of_run, size_of_run, d]], WEIGHT_ON_CLAUSES_TO_REDUCE)))
        numTraces max_d j (d - 1) hj hd
      rw [hde] at hstep
      exact hstep
    · simp only [createWncf, createWncfSoft, hsign, hhe, if_false, hhh, if_true]
      have hstep := flatMap_chunk_get (fun j i =>
        (([(-1 : Int) * getVarNumber BOOLEAN_VAR_EDIT_DISTANCE [j, i]],
          WEIGHT_ON_CLAUSES_TO_REDUCE)))
        numTraces size_of_run j (i - 1) hj hii
      rw [hie] at hstep
      exact hstep
  · subst hart
    have hsign : (if ANTI_ALIGNMENT ≠ ANTI_ALIGNMENT then (-1 : Int) else 1) = 1 :=
      if_neg (by simp)
    have hedit : (EDIT_DISTANCE = EDIT_DISTANCE) = True := by simp
    have hhe : (HAMMING_DISTANCE = EDIT_DISTANCE) = False := by
      simp [HAMMING_DISTANCE, EDIT_DISTANCE]
    have hhh : (HAMMING_DISTANCE = HAMMING_DISTANCE) = True := by simp
    refine ⟨?_, ?_, ?_, ?_⟩
    · simp only [createWncf, createWncfSoft, hsign, hedit, if_true]
      exact flatMap_chunk_length _ numTraces max_d
    · simp only [createWncf, createWncfSoft, hsign, hhe, if_false, hhh, if_true]
      exact flatMap_chunk_length _ numTraces size_of_run
    · simp only [createWncf, createWncfSoft, hsign, hedit, if_true]
      have hstep := flatMap_chunk_get (fun j d =>
        (([(1 : Int) * getVarNumber BOOLEAN_VAR_EDIT_DISTANCE
          [j, size_of_run, size_of_run, d]], WEIGHT_ON_CLAUSES_TO_REDUCE)))
        numTraces max_d j (d - 1) hj hd
      rw [hde] at hstep
      exact hstep
    · simp only [createWncf, createWncfSoft, hsign, hhe, if_false, hhh, if_true]
      have hstep := flatMap_chunk_get (fun j i =>
        (([(1 : Int) * getVarNumber BOOLEAN_VAR_EDIT_DISTANCE [j, i]],
          WEIGHT_ON_CLAUSES_TO_REDUCE)))
        numTraces size_of_run j (i - 1) hj hii
      rw [hie] at hstep
      exact hstep

theorem claim_soft_clauses_witness :
    1 < 2 ∧ 1 ≤ 2 ∧ 2 ≤ 2 ∧ 1 ≤ 3 ∧ 3 ≤ 3 ∧
    ((WEIGHT_ON_CLAUSES_TO_REDUCE < 0) ∧
     ((MULTI_ALIGNMENT = MULTI_ALIGNMENT ∨ MULTI_ALIGNMENT = EXACT_ALIGNMENT) →
       ((createWncf (fun s idx => (100 : Int)) 0 [] []
           EDIT_DISTANCE MULTI_ALIGNMENT 2 3 2).2.length = 2 * 2 ∧
        (createWncf (fun s idx => (100 : Int)) 0 [] []
           HAMMING_DISTANCE MULTI_ALIGNMENT 2 3 2).2.length = 2 * 3 ∧
        (createWncf (fun s idx => (100 : Int)) 0 [] []
           EDIT_DISTANCE MULTI_ALIGNMENT 2 3 2).2[1 * 2 + (2 - 1)]? =
             some ([-1 * (100 : Int)], WEIGHT_ON_CLAUSES_TO_REDUCE) ∧
        (createWncf (fun s idx => (100 : Int)) 0 [] []
           HAMMING_DISTANCE MULTI_ALIGNMENT 2 3 2).2[1 * 3 + (3 - 1)]? =
             some ([-1 * (100 : Int)], WEIGHT_ON_CLAUSES_TO_REDUCE))) ∧
     (MULTI_ALIGNMENT = ANTI_ALIGNMENT →
       ((createWncf (fun s idx => (100 : Int)) 0 [] []
           EDIT_DISTANCE MULTI_ALIGNMENT 2 3 2).2.length = 2 * 2 ∧
        (createWncf (fun s idx => (100 : Int)) 0 [] []
           HAMMING_DISTANCE MULTI_ALIGNMENT 2 3 2).2.length = 2 * 3 ∧
        (createWncf (fun s idx => (100 : Int)) 0 [] []
           EDIT_DISTANCE MULTI_ALIGNMENT 2 3 2).2[1 * 2 + (2 - 1)]? =
             some ([1 * (100 : Int)], WEIGHT_ON_CLAUSES_TO_REDUCE) ∧
        (createWncf (fun s idx => (100 : Int)) 0 [] []
           HAMMING_DISTANCE MULTI_ALIGNMENT 2 3 2).2[1 * 3 + (3 - 1)]? =
             some ([1 * (100 : Int)], WEIGHT_ON_CLAUSES_TO_REDUCE)))) :=
  ⟨by omega, by omega, by omega, by omega, by omega,
   claim_soft_clauses (fun s idx => (100 : Int)) 0 [] [] MULTI_ALIGNMENT 2 3 2
     1 2 3 (by omega) (by omega) (by omega) (by omega) (by omega)⟩

/-- Label of the wait transition added by __add_wait_net
(conformanceArtefacts.py, line 38). -/
def WAIT_TRANSITION : String := "w"

/-- Petri net state as far as __add_wait_net reads and writes it: place
identifiers, transition identifiers and directed arcs between identifiers.
A place's out_arcs are the arcs having that place as source. -/
structure PNet where
  places : List String
  transitions : List String
  arcs : List (String × String)
deriving DecidableEq

/-- Translated from ConformanceArtefacts.__add_wait_net (lines 233-251):
create a "w" transition; for every place with no outgoing arcs add the arc
pair place-to-w and w-to-place; add the transition to the net. -/
def add_wait_net (net : PNet) : PNet :=
  let sinks := net.places.filter (fun q => net.arcs.all (fun a => a.1 ≠ q))
  { places := net.places
    transitions := net.transitions ++ [WAIT_TRANSITION]
    arcs := net.arcs ++ sinks.flatMap
      (fun q => [(q, WAIT_TRANSITION), (WAIT_TRANSITION, q)]) }

/-- Object state relevant to the net mutation: a heap of Petri net objects
addressed by references, and the reference stored in the private field
self.__net of a ConformanceArtefacts instance. -/
structure Session where
  heap : Nat → PNet
  stored : Nat

/-- Net-state effect of multiAlignment(net, ...) (lines 82-103): the call
stores the caller's reference in self.__net and then
__artefactsInitialisation runs __add_wait_net on that same object. -/
def multiAlignment_netEffect (s : Session) (r : Nat) : Session :=
  { heap := fun x => if x = r then add_wait_net (s.heap r) else s.heap x
    stored := r }

/-- Net-state effect of antiAlignment(net, ...) (lines 105-126): identical to
multiAlignment as far as the net is concerned. -/
def antiAlignment_netEffect (s : Session) (r : Nat) : Session :=
  { heap := fun x => if x = r then add_wait_net (s.heap r) else s.heap x
    stored := r }

/-- Net-state effect of exactAlignment(net, ...) (lines 128-145): the method
never assigns self.__net, so __add_wait_net mutates the previously stored
net object; the net passed as argument is not touched (unless it is the same
object). -/
def exactAlignment_netEffect (s : Session) (r : Nat) : Session :=
  { heap := fun x =>
      if x = s.stored then add_wait_net (s.heap s.stored) else s.heap x
    stored := s.stored }

/-- C9 counterexample: exactAlignment does not mutate the caller's net.  In a
session whose stored net is at reference 0, calling exactAlignment with the
net at reference 1 leaves that net exactly as it was - in particular no "w"
transition is added to it, contradicting the claim for exactAlignment. -/
theorem claim_net_mutation_counterexample :
    (exactAlignment_netEffect
      { heap := fun x => if x = 1 then
          { places := ["p1"], transitions := ["t1"], arcs := [] }
        else { places := [], transitions := [], arcs := [] }
        stored := 0 } 1).heap 1 =
      { places := ["p1"], transitions := ["t1"], arcs := [] } ∧
    WAIT_TRANSITION ∉ ((exactAlignment_netEffect
      { heap := fun x => if x = 1 then
          { places := ["p1"], transitions := ["t1"], arcs := [] }
        else { places := [], transitions := [], arcs := [] }
        stored := 0 } 1).heap 1).transitions := by
  constructor
  · rfl
  · intro h
    simp only [exactAlignment_netEffect] at h
    norm_num at h
    simp [WAIT_TRANSITION] at h

/-- C9 amended: multiAlignment and antiAlignment mutate the caller's Petri
net: the net behind the passed reference gains a new transition labelled "w",
and for every place with no outgoing arcs a self-loop arc pair with the wait
transition; the transition list differs afterwards, so the input net is not
restored.  exactAlignment instead ignores its net argument: it applies the
same mutation to the net stored by the previous call, and a distinct argument
net is left unchanged. -/
theorem claim_net_mutation_amended (s : Session) (r : Nat) :
    ((multiAlignment_netEffect s r).heap r = add_wait_net (s.heap r) ∧
     WAIT_TRANSITION ∈ ((multiAlignment_netEffect s r).heap r).transitions ∧
     (∀ q ∈ (s.heap r).places, (∀ a ∈ (s.heap r).arcs, a.1 ≠ q) →
       (q, WAIT_TRANSITION) ∈ ((multiAlignment_netEffect s r).heap r).arcs ∧
       (WAIT_TRANSITION, q) ∈ ((multiAlignment_netEffect s r).heap r).arcs) ∧
     ((multiAlignment_netEffect s r).heap r).transitions ≠
       (s.heap r).transitions) ∧
    ((antiAlignment_netEffect s r).heap r = add_wait_net (s.heap r)) ∧
    ((exactAlignment_netEffect s r).heap s.stored =
       add_wait_net (s.heap s.stored) ∧
     (r ≠ s.stored → (exactAlignment_netEffect s r).heap r = s.heap r)) := by
  have hmulti : (multiAlignment_netEffect s r).heap r = add_wait_net (s.heap r) := by
    simp [multiAlignment_netEffect]
  refine ⟨⟨hmulti, ?_, ?_, ?_⟩, ?_, ?_, ?_⟩
  · rw [hmulti]
    simp [add_wait_net]
  · intro q hq hsink
    rw [hmulti]
    simp only [add_wait_net, List.mem_append]
    have hqs : q ∈ (s.heap r).places.filter
        (fun q => (s.heap r).arcs.all (fun a => a.1 ≠ q)) := by
      rw [List.mem_filter]
      refine ⟨hq, ?_⟩
      rw [List.all_eq_true]
      intro a ha
      simp only [decide_eq_true_eq]
      exact hsink a ha
    constructor
    · right
      rw [List.mem_flatMap]
      exact ⟨q, hqs, by simp⟩
    · right
      rw [List.mem_flatMap]
      exact ⟨q, hqs, by simp⟩
  · rw [hmulti]
    simp only [add_wait_net]
    intro h
    have hlen := congrArg List.length h
    simp at hlen
  · simp [antiAlignment_netEffect]
  · simp [exactAlignment_netEffect]
  · intro hne
    simp [exactAlignment_netEffect, hne]

theorem claim_net_mutation_amended_witness :
    (((multiAlignment_netEffect
        { heap := fun x => { places := ["p1"], transitions := [], arcs := [] }
          stored := 0 } 1).heap 1 =
      add_wait_net { places := ["p1"], transitions := [], arcs := [] } ∧
     WAIT_TRANSITION ∈ ((multiAlignment_netEffect
        { heap := fun x => { places := ["p1"], transitions := [], arcs := [] }
          stored := 0 } 1).heap 1).transitions ∧
     (∀ q ∈ ({ places := ["p1"], transitions := [], arcs := [] } : PNet).places,
       (∀ a ∈ ({ places := ["p1"], transitions := [], arcs := [] } : PNet).arcs,
          a.1 ≠ q) →
       (q, WAIT_TRANSITION) ∈ ((multiAlignment_netEffect
          { heap := fun x => { places := ["p1"], transitions := [], arcs := [] }
            stored := 0 } 1).heap 1).arcs ∧
       (WAIT_TRANSITION, q) ∈ ((multiAlignment_netEffect
          { heap := fun x => { places := ["p1"], transitions := [], arcs := [] }
            stored := 0 } 1).heap 1).arcs) ∧
     ((multiAlignment_netEffect
        { heap := fun x => { places := ["p1"], transitions := [], arcs := [] }
          stored := 0 } 1).heap 1).transitions ≠
       ({ places := ["p1"], transitions := [], arcs := [] } : PNet).transitions) ∧
    ((antiAlignment_netEffect
        { heap := fun x => { places := ["p1"], transitions := [], arcs := [] }
          stored := 0 } 1).heap 1 =
      add_wait_net { places := ["p1"], transitions := [], arcs := [] }) ∧
    ((exactAlignment_netEffect
        { heap := fun x => { places := ["p1"], transitions := [], arcs := [] }
          stored := 0 } 1).heap 0 =
      add_wait_net { places := ["p1"], transitions := [], arcs := [] } ∧
     ((1 : Nat) ≠ 0 → (exactAlignment_netEffect
        { heap := fun x => { places := ["p1"], transitions := [], arcs := [] }
          stored := 0 } 1).heap 1 =
          { places := ["p1"], transitions := [], arcs := [] }))) ∧
    ("p1", WAIT_TRANSITION) ∈ ((multiAlignment_netEffect
        { heap := fun x => { places := ["p1"], transitions := [], arcs := [] }
          stored := 0 } 1).heap 1).arcs ∧
    (exactAlignment_netEffect
        { heap := fun x => { places := ["p1"], transitions := [], arcs := [] }
          stored := 0 } 1).heap 1 =
      { places := ["p1"], transitions := [], arcs := [] } :=
  ⟨claim_net_mutation_amended
    { heap := fun x => { places := ["p1"], transitions := [], arcs := [] }
      stored := 0 } 1,
   ((claim_net_mutation_amended
      { heap := fun x => { places := ["p1"], transitions := [], arcs := [] }
        stored := 0 } 1).1.2.2.1 "p1" (by simp) (by simp)).1,
   (claim_net_mutation_amended
      { heap := fun x => { places := ["p1"], transitions := [], arcs := [] }
        stored := 0 } 1).2.2.2 (by simp)⟩

end Da4py
